import Mathlib

/-!
Verification development for `src/transformers/models/resnet/convert_resnet_to_pytorch.py`.

The script converts pretrained ResNet checkpoints between two module layouts.  Its core is:
* `Tracker` — registers a forward hook on every module of a tree, runs one forward pass,
  records the modules that fire and have no submodules (or are `Conv2d` / `BatchNorm2d`),
  and exposes the `parametrized` view (traced modules with a non-empty `state_dict`);
* `ModuleTransfer` — traces source and destination with the same input, filters the two
  parametrized sequences by excluded kinds, checks they have equal length, and then copies
  `src_m.state_dict()` into each `dest_m` positionally via `load_state_dict`;
* orchestration — a fixed six-entry `names_to_config` table, per-architecture conversion,
  an output-equivalence assertion and hub publishing.

The embedding below models `torch.nn.Module` as a finite tree of kinded nodes carrying
named parameters and named persistent buffers; forward execution of a tree is the
post-order completion of its nodes (each module runs its children in order and then
completes), which is when torch fires forward hooks for standard sequential/residual
stacks.  Python object references into the destination tree are modelled as paths
(`List Nat`), and the in-place mutation performed by `load_state_dict` becomes a
functional update of the destination tree at the referenced path.
-/

namespace ResNetConvert

/-- Runtime kind of a module: the Python `isinstance`/`type(x)` distinctions used by the
script (`nn.Conv2d`, `nn.BatchNorm2d`, other leaf kinds, containers). -/
inductive Kind where
  | conv2d
  | batchNorm2d
  | linear
  | relu
  | pool
  | container
deriving DecidableEq, Repr

/-- Model of a torch tensor: a shape together with an abstract content value. -/
structure Tensor where
  shape : List Nat
  val : Int
deriving DecidableEq, Repr

mutual
/-- Model of `torch.nn.Module`: a kind, the module's own named learnable parameters, its
own named persistent buffers (e.g. batch-norm running statistics), and its child modules. -/
inductive NNModule where
  | mk (kind : Kind) (params : List (String × Tensor)) (buffers : List (String × Tensor))
      (children : NNModules)

/-- The ordered list of child modules of an `NNModule`. -/
inductive NNModules where
  | nil
  | cons (m : NNModule) (rest : NNModules)
end

def NNModule.kind : NNModule → Kind
  | .mk k _ _ _ => k

def NNModule.params : NNModule → List (String × Tensor)
  | .mk _ p _ _ => p

def NNModule.buffers : NNModule → List (String × Tensor)
  | .mk _ _ b _ => b

def NNModule.children : NNModule → NNModules
  | .mk _ _ _ cs => cs

def NNModules.length : NNModules → Nat
  | .nil => 0
  | .cons _ rest => rest.length + 1

def NNModules.get? : NNModules → Nat → Option NNModule
  | .nil, _ => none
  | .cons m _, 0 => some m
  | .cons _ rest, n + 1 => rest.get? n

def NNModules.set : NNModules → Nat → NNModule → NNModules
  | .nil, _, _ => .nil
  | .cons _ rest, 0, m => .cons m rest
  | .cons c rest, n + 1, m => .cons c (rest.set n m)

def NNModules.toList : NNModules → List NNModule
  | .nil => []
  | .cons m rest => m :: rest.toList

mutual
/-- Model of `m.modules()`: the module itself followed by all descendants, depth first. -/
def NNModule.modulesList : NNModule → List NNModule
  | .mk k p b cs => .mk k p b cs :: NNModules.modulesAll cs

def NNModules.modulesAll : NNModules → List NNModule
  | .nil => []
  | .cons c rest => c.modulesList ++ NNModules.modulesAll rest
end

/-- Line 46 of the script:
`len(list(m.modules())) == 1 or isinstance(m, nn.Conv2d) or isinstance(m, nn.BatchNorm2d)`. -/
def hasNotSubmodules (m : NNModule) : Bool :=
  m.modulesList.length == 1 || m.kind == Kind.conv2d || m.kind == Kind.batchNorm2d

mutual
/-- Model of `m.state_dict()`: the module's own parameters and buffers, followed by the
entries of every child, with the child's index-derived name as a dotted key prefix
(matching torch's naming for `nn.Sequential`-style containers). -/
def NNModule.stateDict : NNModule → List (String × Tensor)
  | .mk _ p b cs => p ++ b ++ NNModules.childDicts 0 cs

def NNModules.childDicts : Nat → NNModules → List (String × Tensor)
  | _, .nil => []
  | i, .cons c rest =>
      (c.stateDict.map (fun kv => (toString i ++ "." ++ kv.1, kv.2)))
        ++ NNModules.childDicts (i + 1) rest
end

/-! ## Paths: the model of Python object references into a module tree -/

/-- Fetch the sub-module at a path of child indices (the model of a Python reference to a
node of the tree). -/
def NNModule.getAt : NNModule → List Nat → Option NNModule
  | m, [] => some m
  | m, i :: q =>
    match m.children.get? i with
    | none => none
    | some c => c.getAt q

/-- Functionally apply `f` to the node at the given path (the model of an in-place
mutation of the referenced Python object); an invalid path leaves the tree unchanged. -/
def NNModule.updateAt (f : NNModule → NNModule) : NNModule → List Nat → NNModule
  | m, [] => f m
  | .mk k p b cs, i :: q =>
    match cs.get? i with
    | none => .mk k p b cs
    | some c => .mk k p b (cs.set i (NNModule.updateAt f c q))

/-- `isPreB p q` holds when path `p` is a (not necessarily proper) initial segment of
path `q`, i.e. the node at `q` lies inside the subtree rooted at `p`. -/
def isPreB : List Nat → List Nat → Bool
  | [], _ => true
  | _ :: _, [] => false
  | a :: p, b :: q => a == b && isPreB p q

/-! ## Forward execution order and the Tracker -/

mutual
/-- All nodes of the tree in forward-completion order, each tagged with its path from the
root: a module runs its children in order and then completes, so completion order is
post-order.  This is the order in which torch fires the forward hooks during the single
forward pass `self.module(x)` for the sequential/residual stacks the script converts. -/
def NNModule.postOrderP : NNModule → List Nat → List (List Nat × NNModule)
  | .mk k p b cs, path =>
      NNModules.postOrderChildren cs path 0 ++ [(path, .mk k p b cs)]

def NNModules.postOrderChildren : NNModules → List Nat → Nat → List (List Nat × NNModule)
  | .nil, _, _ => []
  | .cons c rest, path, i =>
      c.postOrderP (path ++ [i]) ++ NNModules.postOrderChildren rest path (i + 1)
end

/-- The modules of a tree in forward-completion order (the sequence of hook firings). -/
def NNModule.execOrder (m : NNModule) : List NNModule :=
  (m.postOrderP []).map (·.2)

/-- The `Tracker` dataclass of the script: the traced module, the list of recorded
modules, and the list of hook handles. -/
structure Tracker where
  module : NNModule
  traced : List NNModule := []
  handles : List Nat := []

/-- `Tracker._forward_hook`: when a module fires, append it to `traced` exactly when it
has no submodules or is a `Conv2d` / `BatchNorm2d` (the inputs/outputs arguments of the
Python hook are unused by the recording decision). -/
def Tracker.forwardHook (t : Tracker) (m : NNModule) : Tracker :=
  if hasNotSubmodules m then { t with traced := t.traced ++ [m] } else t

/-- The external hook-registry state: the set of live hook handles on the process, and
the next fresh handle id.  `register_forward_hook` allocates a fresh handle and adds it;
`handle.remove()` deletes it. -/
structure HookState where
  reg : List Nat
  next : Nat

/-- `Tracker.__call__`: register a forward hook on every module of the tree (one fresh
handle per module, appended to `self.handles`), run the single forward pass (each hook
firing runs `_forward_hook`), then `remove()` every handle in `self.handles`.  Returns
the updated tracker together with the updated hook registry.  The sample input `x` does
not influence the structural execution order. -/
def Tracker.callSt (t : Tracker) (_x : Tensor) (st : HookState) : Tracker × HookState :=
  let n := t.module.modulesList.length
  let fresh := List.range' st.next n
  let t1 : Tracker := { t with handles := t.handles ++ fresh }
  let t2 := t.module.execOrder.foldl Tracker.forwardHook t1
  let reg2 := (st.reg ++ fresh).filter (fun h => !t2.handles.contains h)
  (t2, ⟨reg2, st.next + n⟩)

/-- `Tracker(module)(x)` with the hook registry left implicit (the registry is only
needed to state that instrumentation is removed; see the frame-effect theorems). -/
def Tracker.call (t : Tracker) (x : Tensor) : Tracker :=
  (t.callSt x ⟨[], 0⟩).1

/-- `Tracker.parametrized` (line 60): the traced modules whose `state_dict()` has at
least one key. -/
def Tracker.parametrized (t : Tracker) : List NNModule :=
  t.traced.filter (fun x => decide (0 < x.stateDict.length))

/-! ## `load_state_dict` semantics

The script copies weights with `dest_m.load_state_dict(src_m.state_dict())` (strict
mode).  Torch's strict load succeeds exactly when the two flat state dicts have the same
key set with shape-compatible tensors, and it copies, for every key present with a
matching shape, the source tensor into the destination entry (entries with a missing key
or a mismatched shape are left unchanged and reported).  Because both dicts come from
module trees whose child keys are the canonical index-derived names, we model the pair
`load_state_dict(state_dict())` structurally on the two trees: own entries are matched by
name within each node, children are matched positionally. -/

/-- Look up a named tensor in a node's own entry list (first match, as in a Python dict
built from these keys). -/
def lookupT (l : List (String × Tensor)) (k : String) : Option Tensor :=
  (l.find? (fun kv => kv.1 == k)).map (·.2)

/-- Copy step for the own entries of one node: each destination entry takes the source
tensor of the same name when one exists with an equal shape, and is kept unchanged
otherwise (torch records a missing key / size mismatch for it instead of copying). -/
def copyEntries (own src : List (String × Tensor)) : List (String × Tensor) :=
  own.map (fun kv =>
    match lookupT src kv.1 with
    | some t => if t.shape == kv.2.shape then (kv.1, t) else kv
    | none => kv)

mutual
/-- `dest.load_state_dict(src.state_dict())`, the copying part: replace every
shape-compatible named entry of `dest` by the corresponding `src` value, recursively;
source children beyond the destination's are ignored and destination children beyond the
source's are unchanged (strictness is the separate check `sdCompatible`). -/
def NNModule.loadFrom : NNModule → NNModule → NNModule
  | .mk k p b cs, .mk _ p2 b2 cs2 =>
      .mk k (copyEntries p (p2 ++ b2)) (copyEntries b (p2 ++ b2))
        (NNModules.loadFromList cs cs2)

def NNModules.loadFromList : NNModules → NNModules → NNModules
  | .nil, _ => .nil
  | .cons c rest, .nil => .cons c rest
  | .cons c rest, .cons d ds => .cons (c.loadFrom d) (NNModules.loadFromList rest ds)
end

/-- One node's own entries are strict-load compatible: every destination key is present
in the source with an equal shape (no missing keys, no size mismatches) and every source
key is present in the destination (no unexpected keys). -/
def entriesCompatible (dest src : List (String × Tensor)) : Bool :=
  dest.all (fun kv =>
      match lookupT src kv.1 with
      | some t => t.shape == kv.2.shape
      | none => false)
    && src.all (fun kv => (lookupT dest kv.1).isSome)

mutual
/-- Strict-load compatibility of `dest.load_state_dict(src.state_dict())`: key sets agree
with equal shapes at every level (own entries by name, children positionally). -/
def NNModule.sdCompatible : NNModule → NNModule → Bool
  | .mk _ p b cs, .mk _ p2 b2 cs2 =>
      entriesCompatible (p ++ b) (p2 ++ b2) && NNModules.sdCompatibleList cs cs2

def NNModules.sdCompatibleList : NNModules → NNModules → Bool
  | .nil, .nil => true
  | .nil, .cons _ _ => false
  | .cons _ _, .nil => false
  | .cons c rest, .cons d ds => c.sdCompatible d && NNModules.sdCompatibleList rest ds
end

/-! ## ModuleTransfer -/

/-- The error raised by `ModuleTransfer.__call__`: the structural-equivalence failure of
line 83 (carrying the two observed lengths, source first as in the message text), or the
strict `load_state_dict` failure at some position (a parameter-shape/key incompatibility). -/
inductive TransferError where
  | structuralMismatch (srcLen destLen : Nat)
  | shapeMismatch
deriving DecidableEq, Repr

/-- The `ModuleTransfer` dataclass: source and destination modules, verbosity (print
only — no behavioural effect), and the two exclude-kind lists. -/
structure ModuleTransfer where
  src : NNModule
  dest : NNModule
  verbose : Nat := 0
  src_skip : List Kind := []
  dest_skip : List Kind := []

/-- The traced sequence of a module as `(path, module)` pairs: the recorded hook firings
(post-order completions that satisfy `hasNotSubmodules`), each tagged with the path that
models the Python reference to the recorded node. -/
def tracedPairs (m : NNModule) : List (List Nat × NNModule) :=
  (m.postOrderP []).filter (fun pm => hasNotSubmodules pm.2)

/-- The `parametrized` view of the trace, with paths: recorded modules whose
`state_dict()` is non-empty. -/
def parametrizedPairs (m : NNModule) : List (List Nat × NNModule) :=
  (tracedPairs m).filter (fun pm => decide (0 < pm.2.stateDict.length))

/-- Lines 79–80: drop the traced leaves whose runtime type is in the exclude list. -/
def filteredPairs (m : NNModule) (skip : List Kind) : List (List Nat × NNModule) :=
  (parametrizedPairs m).filter (fun pm => !skip.contains pm.2.kind)

/-- The per-position loop of lines 87–88 over the zipped pairs
`(destination path, source leaf)`: fetch the live destination node, copy the source
leaf's state into it (`load_state_dict` copies the compatible entries before reporting
errors), and stop with a `shapeMismatch` error if the strict load fails there. -/
def loadLoop : NNModule → List (List Nat × NNModule) → Option TransferError × NNModule
  | d, [] => (none, d)
  | d, (pd, sm) :: rest =>
    match d.getAt pd with
    | none => (none, d)
    | some dm =>
      let d2 := NNModule.updateAt (fun u => u.loadFrom sm) d pd
      if dm.sdCompatible sm then loadLoop d2 rest else (some TransferError.shapeMismatch, d2)

/-- The zipped pairing of lines 87: the path of each filtered destination leaf (the
Python reference to the live `dest_m`) with the corresponding filtered source leaf. -/
def ModuleTransfer.transferPlan (mt : ModuleTransfer) : List (List Nat × NNModule) :=
  ((filteredPairs mt.dest mt.dest_skip).map (·.1)).zip
    ((filteredPairs mt.src mt.src_skip).map (·.2))

/-- `ModuleTransfer.__call__(x)` (lines 71–90): trace destination and source, filter both
parametrized sequences by the exclude kinds, fail with the structural mismatch carrying
both lengths if the filtered lengths differ, and otherwise copy state leaf by leaf in
positional order.  The returned module is the final state of the destination tree (the
terminal effect of the Python in-place mutation), alongside the raised error if any. -/
def ModuleTransfer.call (mt : ModuleTransfer) (_x : Tensor) :
    Option TransferError × NNModule :=
  let dest_traced := filteredPairs mt.dest mt.dest_skip
  let src_traced := filteredPairs mt.src mt.src_skip
  if dest_traced.length ≠ src_traced.length then
    (some (TransferError.structuralMismatch src_traced.length dest_traced.length), mt.dest)
  else
    loadLoop mt.dest mt.transferPlan

/-! ## Conversion orchestration

`convert_weight_and_push` / `convert_weights_and_push` build models, run the transfer,
assert output equivalence and publish — all through external collaborators (`timm`,
`ResNetForImageClassification`, `torch.allclose`, `push_to_hub`).  We model this layer as
the sequence of externally visible actions it performs, with the outcome of the
output-equivalence check supplied by an oracle `close : String → Bool` (whether
`torch.allclose(from_model(x), our_model(x).logits)` holds for that architecture). -/

/-- The fields of `ResNetConfig` fixed by the conversion table (the label-metadata
fields `id2label`/`label2id` come from an external download and are not modelled). -/
structure ResNetConfig where
  depths : List Nat
  hidden_sizes : List Nat
  layer_type : String
  num_labels : Nat
deriving DecidableEq, Repr

/-- `ImageNetPreTrainedConfig`: `ResNetConfig` partially applied with the ImageNet label
count (line 128). -/
def ImageNetPreTrainedConfig (depths hidden_sizes : List Nat) (layer_type : String) :
    ResNetConfig :=
  ⟨depths, hidden_sizes, layer_type, 1000⟩

/-- The fixed `names_to_config` table (lines 130–149), in Python dict insertion order. -/
def names_to_config : List (String × ResNetConfig) :=
  [ ("resnet18", ImageNetPreTrainedConfig [2, 2, 2, 2] [64, 64, 128, 256, 512] "basic"),
    ("resnet26", ImageNetPreTrainedConfig [2, 2, 2, 2] [64, 256, 512, 1024, 2048] "bottleneck"),
    ("resnet34", ImageNetPreTrainedConfig [3, 4, 6, 3] [64, 64, 128, 256, 512] "basic"),
    ("resnet50", ImageNetPreTrainedConfig [3, 4, 6, 3] [64, 256, 512, 1024, 2048] "bottleneck"),
    ("resnet101", ImageNetPreTrainedConfig [3, 4, 23, 3] [64, 256, 512, 1024, 2048] "bottleneck"),
    ("resnet152", ImageNetPreTrainedConfig [3, 8, 36, 3] [64, 256, 512, 1024, 2048] "bottleneck") ]

/-- Dict lookup `names_to_config[model_name]`. -/
def lookupConfig (name : String) : Option ResNetConfig :=
  (names_to_config.find? (fun p => p.1 == name)).map (·.2)

/-- The externally visible actions of one conversion run, in order. -/
inductive Event where
  | createSourceModel (name : String)
  | createDestModel (name : String) (config : ResNetConfig)
  | transferWeights (name : String)
  | assertLogitsClose (name : String) (ok : Bool)
  | pushModel (name : String)
  | pushFeatureExtractor (name : String)
deriving DecidableEq, Repr

/-- The error that aborts a run: the `KeyError` from `names_to_config[model_name]`, or
the `AssertionError` of the logits-equivalence check. -/
inductive RunError where
  | keyError (name : String)
  | assertionError (name : String)
deriving DecidableEq, Repr

/-- `convert_weight_and_push(name, config, save_directory)` (lines 93–112): build the
pretrained source, build the destination from `config`, transfer, assert output
equivalence, and push the destination model to the hub.  On an assertion failure the
exception propagates and nothing is pushed.  Note that this path pushes only the model:
it has no feature-extractor push. -/
def convert_weight_and_push (close : String → Bool) (name : String)
    (config : ResNetConfig) : List Event × Option RunError :=
  let ok := close name
  ([Event.createSourceModel name, Event.createDestModel name config,
      Event.transferWeights name, Event.assertLogitsClose name ok]
      ++ (if ok then [Event.pushModel name] else []),
    if ok then none else some (RunError.assertionError name))

/-- The `else` loop of `convert_weights_and_push` (lines 154–176): for each table entry
in order, build both models, transfer, assert, push the model and then the feature
extractor; a failed assertion raises and stops the whole loop. -/
def convertAll (close : String → Bool) : List (String × ResNetConfig) →
    List Event × Option RunError
  | [] => ([], none)
  | (name, config) :: rest =>
    let ok := close name
    let evs := [Event.createSourceModel name, Event.createDestModel name config,
      Event.transferWeights name, Event.assertLogitsClose name ok]
    if ok then
      let r := convertAll close rest
      (evs ++ [Event.pushModel name, Event.pushFeatureExtractor name] ++ r.1, r.2)
    else
      (evs, some (RunError.assertionError name))

/-- `convert_weights_and_push(save_directory, model_name)` (lines 115–178): Python's
`if model_name:` is a truthiness test, so both `None` and the empty string select the
convert-all loop; a non-empty name is looked up in `names_to_config` (a `KeyError`
escapes before any model is built) and handed to `convert_weight_and_push`. -/
def convert_weights_and_push (close : String → Bool) (model_name : Option String) :
    List Event × Option RunError :=
  match model_name with
  | some name =>
    if name ≠ "" then
      match lookupConfig name with
      | some config => convert_weight_and_push close name config
      | none => ([], some (RunError.keyError name))
    else convertAll close names_to_config
  | none => convertAll close names_to_config

/-- The `(name, config)` of every destination-model build in an event list, in order. -/
def destBuilds (evs : List Event) : List (String × ResNetConfig) :=
  evs.filterMap (fun e =>
    match e with
    | Event.createDestModel n c => some (n, c)
    | _ => none)

/-! ## Skeletons: the shape of a module tree with parameter values erased

Several invariants of the transfer (trace paths, filter decisions, strict-load
compatibility) depend only on the kinds, the entry names, the tensor shapes and the tree
structure — not on the tensor contents.  `skel` erases the contents; two modules with
equal skeletons are interchangeable for all those purposes, and every copy operation of
the transfer preserves the destination's skeleton. -/

/-- Erase a tensor's content, keeping its shape. -/
def eraseShape (t : Tensor) : Tensor := ⟨t.shape, 0⟩

/-- Erase the contents of a named entry list, keeping names and shapes. -/
def eraseEntries (l : List (String × Tensor)) : List (String × Tensor) :=
  l.map (fun kv => (kv.1, eraseShape kv.2))

mutual
/-- The skeleton of a module: the same tree with every tensor content erased. -/
def NNModule.skel : NNModule → NNModule
  | .mk k p b cs => .mk k (eraseEntries p) (eraseEntries b) (NNModules.skelList cs)

def NNModules.skelList : NNModules → NNModules
  | .nil => .nil
  | .cons c rest => .cons c.skel (NNModules.skelList rest)
end

/-- The locally visible data of one node: kind, own entries, child count — everything
about the node except the contents of its subtrees. -/
def nodeLocal (m : NNModule) : Kind × List (String × Tensor) × List (String × Tensor) × Nat :=
  (m.kind, m.params, m.buffers, m.children.length)

/-- The sequence of in-place copies of the transfer loop as a functional fold: apply
`load_state_dict` of the paired source leaf at each destination path in order. -/
def foldUpdates (d : NNModule) (L : List (List Nat × NNModule)) : NNModule :=
  L.foldl (fun t pr => NNModule.updateAt (fun u => u.loadFrom pr.2) t pr.1) d

/-- All destination references of a transfer plan resolve, and the strict load is
compatible at every position (evaluated on the given destination tree). -/
def pairsCompatible (d : NNModule) (L : List (List Nat × NNModule)) : Bool :=
  L.all (fun pr =>
    match d.getAt pr.1 with
    | some dm => dm.sdCompatible pr.2
    | none => false)

/-- The paths are pairwise non-nested: no traced destination leaf lies inside another
(true of every realistic model, where `Conv2d`/`BatchNorm2d` leaves have no children). -/
def noNestB : List (List Nat) → Bool
  | [] => true
  | p :: ps => ps.all (fun q => !isPreB p q && !isPreB q p) && noNestB ps

/-- A path is covered by the plan: it lies inside the subtree of some planned update. -/
def coveredBy (ps : List (List Nat)) (q : List Nat) : Prop :=
  ∃ p ∈ ps, isPreB p q = true

mutual
/-- `d.sdAgree s`: every named entry of `d` (parameters and buffers alike) holds exactly
the value of the same-named entry of `s`, recursively through positionally matched
children — the statement that the complete state of `s` has been copied into `d`. -/
def NNModule.sdAgree : NNModule → NNModule → Bool
  | .mk _ p b cs, .mk _ p2 b2 cs2 =>
      (p ++ b).all (fun kv => lookupT (p2 ++ b2) kv.1 == some kv.2)
        && NNModules.sdAgreeList cs cs2

def NNModules.sdAgreeList : NNModules → NNModules → Bool
  | .nil, .nil => true
  | .nil, .cons _ _ => false
  | .cons _ _, .nil => false
  | .cons c rest, .cons d ds => c.sdAgree d && NNModules.sdAgreeList rest ds
end

/-- The child-then-descend step of `getAt`, split out for the extensionality proof. -/
def getAtChild (cs : NNModules) (i : Nat) (q : List Nat) : Option NNModule :=
  match cs.get? i with
  | some c => c.getAt q
  | none => none


/-! ## Concrete fixtures used to evaluate the theorems on explicit inputs -/

/-- A fixed sample input, standing for `torch.randn((1, 3, 224, 224))`. -/
def xW : Tensor := ⟨[1, 3, 224, 224], 0⟩

/-- A convolution leaf with one learnable weight. -/
def convW : NNModule := .mk .conv2d [("weight", ⟨[4, 3, 3, 3], 1⟩)] [] .nil

/-- A batch-norm leaf with learnable affine parameters and running statistics. -/
def bnW : NNModule := .mk .batchNorm2d [("weight", ⟨[4], 2⟩), ("bias", ⟨[4], 3⟩)]
  [("running_mean", ⟨[4], 0⟩), ("running_var", ⟨[4], 1⟩)] .nil

/-- An activation leaf: no parameters, no buffers. -/
def reluW : NNModule := .mk .relu [] [] .nil

/-- A batch-norm leaf with `affine=False` but `track_running_stats=True`: its parameter
mapping is empty while its `state_dict` still holds the running statistics. -/
def bnNoAffineW : NNModule :=
  .mk .batchNorm2d [] [("running_mean", ⟨[4], 0⟩), ("running_var", ⟨[4], 1⟩)] .nil

/-- Destination fixture: container with conv, batch-norm and activation children. -/
def netDestW : NNModule := .mk .container [] [] (.cons convW (.cons bnW (.cons reluW .nil)))

/-- Source fixture with matching parametrized structure but different values. -/
def netSrcW : NNModule := .mk .container [] []
  (.cons (.mk .conv2d [("weight", ⟨[4, 3, 3, 3], 10⟩)] [] .nil)
    (.cons (.mk .batchNorm2d [("weight", ⟨[4], 20⟩), ("bias", ⟨[4], 30⟩)]
      [("running_mean", ⟨[4], 40⟩), ("running_var", ⟨[4], 50⟩)] .nil) .nil))

/-- Source fixture with only one parametrized leaf (for the mismatch case). -/
def netSrc1W : NNModule := .mk .container [] []
  (.cons (.mk .conv2d [("weight", ⟨[4, 3, 3, 3], 10⟩)] [] .nil) .nil)

/-- A transfer whose filtered sequences have lengths source 1 / destination 2. -/
def mtMismatchW : ModuleTransfer := { src := netSrc1W, dest := netDestW }

/-- A transfer whose filtered sequences align (and whose shapes all match). -/
def mtOkW : ModuleTransfer := { src := netSrcW, dest := netDestW }

/-- The spec's notion of the derived view (§3 "Parametrized Leaf", the claimed
characterisation): the recorded leaves whose mapping of learnable parameters is
non-empty — stated from the spec's words, to be compared with `Tracker.parametrized`,
which filters on a non-empty `state_dict` (learnable parameters *or* buffers). -/
def Tracker.parametrizedSpec (t : Tracker) : List NNModule :=
  t.traced.filter (fun x => decide (0 < x.params.length))

/-! ## Basic facts about the leaf-unit condition -/

theorem NNModules.modulesAll_eq_nil_iff : ∀ cs : NNModules, NNModules.modulesAll cs = [] ↔ cs = NNModules.nil
  | .nil => by simp [NNModules.modulesAll]
  | .cons c rest => by
    cases c with
    | mk k p b cs2 => simp [NNModules.modulesAll, NNModule.modulesList]

theorem NNModule.modulesList_length_eq_one_iff (m : NNModule) :
    m.modulesList.length = 1 ↔ m.children = NNModules.nil := by
  cases m with
  | mk k p b cs =>
    simp [NNModule.modulesList, NNModule.children]
    exact NNModules.modulesAll_eq_nil_iff cs

theorem hasNotSubmodules_iff (m : NNModule) :
    hasNotSubmodules m = true ↔
      (m.children = NNModules.nil ∨ m.kind = Kind.conv2d ∨ m.kind = Kind.batchNorm2d) := by
  rw [← NNModule.modulesList_length_eq_one_iff]
  simp [hasNotSubmodules, or_assoc]

/-! ## The Tracker's forward pass as a fold of hook firings -/

theorem foldl_forwardHook_traced : ∀ (l : List NNModule) (t : Tracker),
    (l.foldl Tracker.forwardHook t).traced = t.traced ++ l.filter hasNotSubmodules := by
  intro l
  induction l with
  | nil => intro t; simp
  | cons m rest ih =>
    intro t
    by_cases h : hasNotSubmodules m = true
    · simp [Tracker.forwardHook, h, ih]
    · simp only [Bool.not_eq_true] at h
      simp [Tracker.forwardHook, h, ih]

theorem foldl_forwardHook_module : ∀ (l : List NNModule) (t : Tracker),
    (l.foldl Tracker.forwardHook t).module = t.module := by
  intro l
  induction l with
  | nil => intro t; simp
  | cons m rest ih =>
    intro t
    simp only [List.foldl_cons, ih]
    simp [Tracker.forwardHook]
    split <;> rfl

theorem foldl_forwardHook_handles : ∀ (l : List NNModule) (t : Tracker),
    (l.foldl Tracker.forwardHook t).handles = t.handles := by
  intro l
  induction l with
  | nil => intro t; simp
  | cons m rest ih =>
    intro t
    simp only [List.foldl_cons, ih]
    simp [Tracker.forwardHook]
    split <;> rfl

theorem callSt_fst (t : Tracker) (x : Tensor) (st : HookState) :
    (t.callSt x st).1 =
      ⟨t.module, t.traced ++ t.module.execOrder.filter hasNotSubmodules,
        t.handles ++ List.range' st.next t.module.modulesList.length⟩ := by
  simp only [Tracker.callSt]
  have hm := foldl_forwardHook_module t.module.execOrder
    { t with handles := t.handles ++ List.range' st.next t.module.modulesList.length }
  have ht := foldl_forwardHook_traced t.module.execOrder
    { t with handles := t.handles ++ List.range' st.next t.module.modulesList.length }
  have hh := foldl_forwardHook_handles t.module.execOrder
    { t with handles := t.handles ++ List.range' st.next t.module.modulesList.length }
  cases hfold : t.module.execOrder.foldl Tracker.forwardHook
      { t with handles := t.handles ++ List.range' st.next t.module.modulesList.length } with
  | mk m2 tr2 h2 =>
    rw [hfold] at hm ht hh
    simp at hm ht hh
    simp [hm, ht, hh]

theorem call_traced (m : NNModule) (x : Tensor) :
    ((Tracker.mk m [] []).call x).traced = m.execOrder.filter hasNotSubmodules := by
  simp [Tracker.call, callSt_fst]

theorem call_module (m : NNModule) (x : Tensor) :
    ((Tracker.mk m [] []).call x).module = m := by
  simp [Tracker.call, callSt_fst]

theorem call_parametrized (m : NNModule) (x : Tensor) :
    ((Tracker.mk m [] []).call x).parametrized =
      (m.execOrder.filter hasNotSubmodules).filter (fun u => decide (0 < u.stateDict.length)) := by
  simp [Tracker.parametrized, call_traced]

/-- The traced `(path, module)` pairs project to the traced module sequence. -/
theorem tracedPairs_map_snd (m : NNModule) (x : Tensor) :
    (tracedPairs m).map (·.2) = ((Tracker.mk m [] []).call x).traced := by
  rw [call_traced, tracedPairs, NNModule.execOrder, List.filter_map]
  rfl

/-- The parametrized `(path, module)` pairs project to `Tracker.parametrized`. -/
theorem parametrizedPairs_map_snd (m : NNModule) (x : Tensor) :
    (parametrizedPairs m).map (·.2) = ((Tracker.mk m [] []).call x).parametrized := by
  rw [call_parametrized, parametrizedPairs, NNModule.execOrder, tracedPairs,
    List.filter_map, List.filter_map]
  rfl

/-! ## C4: what the observation callback records -/

/-- C4: during a trace, the observation callback appends a fired module to the trace if
and only if it is a leaf unit — it has no child modules, or its kind is convolution, or
its kind is normalization; in all other cases the tracker is left unchanged, so modules
with children of any other kind are never recorded. -/
theorem C4_forward_hook_records_iff_leaf_unit (t : Tracker) (m : NNModule) :
    ((Tracker.forwardHook t m).traced = t.traced ++ [m] ↔
      (m.children = NNModules.nil ∨ m.kind = Kind.conv2d ∨ m.kind = Kind.batchNorm2d)) ∧
    (¬(m.children = NNModules.nil ∨ m.kind = Kind.conv2d ∨ m.kind = Kind.batchNorm2d) →
      Tracker.forwardHook t m = t) := by
  constructor
  · by_cases h : hasNotSubmodules m = true
    · simp [Tracker.forwardHook, h, (hasNotSubmodules_iff m).mp h]
    · rw [← hasNotSubmodules_iff]
      simp only [Bool.not_eq_true] at h
      simp [Tracker.forwardHook, h]
  · intro hnot
    rw [← hasNotSubmodules_iff] at hnot
    simp only [Bool.not_eq_true] at hnot
    simp [Tracker.forwardHook, hnot]

/-- Witness evaluating C4 at explicit inputs: the hook records an activation leaf
(no children) and refuses a container that has children. -/
theorem C4_forward_hook_records_iff_leaf_unit_witness :
    (Tracker.forwardHook ⟨netDestW, [], []⟩ reluW).traced = [] ++ [reluW] ∧
    Tracker.forwardHook ⟨netDestW, [], []⟩ netDestW = ⟨netDestW, [], []⟩ := by
  constructor
  · exact (C4_forward_hook_records_iff_leaf_unit ⟨netDestW, [], []⟩ reluW).1.mpr
      (Or.inl rfl)
  · exact (C4_forward_hook_records_iff_leaf_unit ⟨netDestW, [], []⟩ netDestW).2
      (by simp [netDestW, NNModule.children, NNModule.kind])

/-! ## C2: the `parametrized` derived view -/

/-- C2 refuted at an explicit input: tracing a batch-norm unit with no learnable affine
parameters but tracked running statistics, the code's `parametrized` view keeps the leaf
(its `state_dict` is non-empty) while the claimed characterisation — leaves whose mapping
of learnable parameters is non-empty — excludes it, so the two views differ and the
claimed length equality fails (1 ≠ 0). -/
theorem C2_counterexample_running_stats_leaf :
    ((Tracker.mk bnNoAffineW [] []).call xW).parametrized.length = 1 ∧
    ((Tracker.mk bnNoAffineW [] []).call xW).parametrizedSpec.length = 0 ∧
    bnNoAffineW.params.length = 0 ∧
    ((Tracker.mk bnNoAffineW [] []).call xW).parametrized ≠
      ((Tracker.mk bnNoAffineW [] []).call xW).parametrizedSpec := by
  refine ⟨by decide, by decide, by decide, fun h => ?_⟩
  have hlen := congrArg List.length h
  have h1 : ((Tracker.mk bnNoAffineW [] []).call xW).parametrized.length = 1 := by decide
  have h0 : ((Tracker.mk bnNoAffineW [] []).call xW).parametrizedSpec.length = 0 := by decide
  rw [h1, h0] at hlen
  exact absurd hlen (by decide)

/-- C2 as amended: the Tracker's derived `parametrized` view equals the recorded leaf
sequence filtered, order-preserved, to exactly those leaves whose state mapping
(learnable parameters together with persistent buffers, the keys of `state_dict`) is
non-empty; its length equals the count of traced leaf units with a non-empty state
mapping.  (The code filters on `state_dict` keys, so a normalization unit with running
statistics but no learnable affine parameters is retained, unlike the original claim.) -/
theorem C2_parametrized_is_state_filter (m : NNModule) (x : Tensor) :
    ((Tracker.mk m [] []).call x).parametrized =
      ((Tracker.mk m [] []).call x).traced.filter (fun u => decide (0 < u.stateDict.length)) ∧
    ((Tracker.mk m [] []).call x).parametrized.Sublist ((Tracker.mk m [] []).call x).traced ∧
    ((Tracker.mk m [] []).call x).parametrized.length =
      ((Tracker.mk m [] []).call x).traced.countP (fun u => decide (0 < u.stateDict.length)) ∧
    ∀ u ∈ ((Tracker.mk m [] []).call x).parametrized, 0 < u.stateDict.length := by
  refine ⟨rfl, List.filter_sublist _, (List.countP_eq_length_filter _ _).symm, ?_⟩
  intro u hu
  have := List.of_mem_filter hu
  simpa using this

/-! ## C9: observers are removed after the forward pass -/

/-- C9: a trace attaches one fresh observer per module of the tree and removes every one
of them after the single forward pass: for any prior registry whose live handles predate
the fresh ones, the registry after the call is exactly the prior registry; the tracker's
module is untouched, the recorded trace is the deterministic structural completion order,
and a subsequent trace of the same module (with the post-call registry) records exactly
the same sequence — as if the earlier trace never happened. -/
theorem C9_observers_removed_after_call (m : NNModule) (x : Tensor) (reg : List Nat)
    (next : Nat) (hreg : ∀ h ∈ reg, h < next) :
    ((Tracker.mk m [] []).callSt x ⟨reg, next⟩).2.reg = reg ∧
    ((Tracker.mk m [] []).callSt x ⟨reg, next⟩).1.module = m ∧
    ((Tracker.mk m [] []).callSt x ⟨reg, next⟩).1.traced =
      m.execOrder.filter hasNotSubmodules ∧
    ((Tracker.mk m [] []).callSt x (((Tracker.mk m [] []).callSt x ⟨reg, next⟩).2)).1.traced =
      ((Tracker.mk m [] []).callSt x ⟨reg, next⟩).1.traced := by
  refine ⟨?_, ?_, ?_, ?_⟩
  · simp only [Tracker.callSt]
    rw [foldl_forwardHook_handles]
    simp only [List.nil_append, List.filter_append]
    have h1 : (List.range' next m.modulesList.length).filter
        (fun h => !(List.range' next m.modulesList.length).contains h) = [] := by
      apply List.filter_eq_nil_iff.mpr
      intro a ha
      simp [List.elem_iff, ha]
    have h2 : reg.filter (fun h => !(List.range' next m.modulesList.length).contains h) = reg := by
      apply List.filter_eq_self.mpr
      intro a ha
      have : a < next := hreg a ha
      simp only [Bool.not_eq_eq_eq_not, Bool.not_true]
      rw [List.contains_eq_any_beq]
      apply List.any_eq_false.mpr
      intro b hb
      have hbmem := List.mem_range'_1.mp hb
      have : a ≠ b := by omega
      simpa using this
    rw [h1, h2, List.append_nil]
  · have := callSt_fst (Tracker.mk m [] []) x ⟨reg, next⟩
    rw [this]
  · have := callSt_fst (Tracker.mk m [] []) x ⟨reg, next⟩
    rw [this]
    simp
  · have h1 := callSt_fst (Tracker.mk m [] []) x ⟨reg, next⟩
    have h2 := callSt_fst (Tracker.mk m [] []) x (((Tracker.mk m [] []).callSt x ⟨reg, next⟩).2)
    rw [h1, h2]

/-- Witness evaluating C9 at explicit inputs: tracing the destination fixture with two
pre-existing live handles restores the registry exactly. -/
theorem C9_observers_removed_after_call_witness :
    ((Tracker.mk netDestW [] []).callSt xW ⟨[3, 7], 10⟩).2.reg = [3, 7] ∧
    ((Tracker.mk netDestW [] []).callSt xW ⟨[3, 7], 10⟩).1.module = netDestW := by
  have h := C9_observers_removed_after_call netDestW xW [3, 7] 10 (by decide)
  exact ⟨h.1, h.2.1⟩

/-! ## C7: exclude-kind filtering -/

theorem length_filter_split {α : Type} (p q : α → Bool) : ∀ l : List α,
    (l.filter p).length =
      (l.filter (fun a => p a && !q a)).length + (l.filter (fun a => p a && q a)).length := by
  intro l
  induction l with
  | nil => simp
  | cons a rest ih =>
    by_cases hp : p a = true
    · by_cases hq : q a = true
      · simp [List.filter_cons, hp, hq, ih]
        omega
      · simp only [Bool.not_eq_true] at hq
        simp [List.filter_cons, hp, hq, ih]
        omega
    · simp only [Bool.not_eq_true] at hp
      simp [List.filter_cons, hp, ih]

/-- C7: adding a leaf kind to an exclude list removes exactly the leaves of that runtime
kind from the filtered traced sequence used by the transfer, before the length
comparison: the surviving sequence is the old one with that kind's occurrences dropped
(order preserved, other kinds untouched), and the removed count equals the number of
occurrences of that kind in the unfiltered parametrized sequence.  The same function
implements both `src_skip` and `dest_skip` filtering (lines 79–80). -/
theorem C7_exclude_kind_filtering (m : NNModule) (k : Kind) (skip : List Kind)
    (hk : k ∉ skip) :
    filteredPairs m (k :: skip)
      = (filteredPairs m skip).filter (fun pm => !(pm.2.kind == k)) ∧
    (filteredPairs m skip).length
      = (filteredPairs m (k :: skip)).length
        + ((parametrizedPairs m).filter (fun pm => pm.2.kind == k)).length := by
  have hcontains : ∀ pm : List Nat × NNModule,
      ((k :: skip).contains pm.2.kind) = (pm.2.kind == k || skip.contains pm.2.kind) := by
    intro pm
    simp only [List.contains_cons, Bool.or_comm]
  constructor
  · rw [filteredPairs, filteredPairs, List.filter_filter]
    apply List.filter_congr
    intro pm _
    rw [hcontains pm]
    cases h1 : pm.2.kind == k <;> cases h2 : skip.contains pm.2.kind <;> simp [h1, h2]
  · rw [filteredPairs, filteredPairs]
    have hsplit := length_filter_split (fun pm : List Nat × NNModule => !(skip.contains pm.2.kind))
      (fun pm => pm.2.kind == k) (parametrizedPairs m)
    have he1 : (parametrizedPairs m).filter
        (fun pm => !(skip.contains pm.2.kind) && !(pm.2.kind == k))
        = (parametrizedPairs m).filter (fun pm => !((k :: skip).contains pm.2.kind)) := by
      apply List.filter_congr
      intro pm _
      rw [hcontains pm]
      cases h1 : pm.2.kind == k <;> cases h2 : skip.contains pm.2.kind <;> simp [h1, h2]
    have he2 : (parametrizedPairs m).filter
        (fun pm => !(skip.contains pm.2.kind) && (pm.2.kind == k))
        = (parametrizedPairs m).filter (fun pm => pm.2.kind == k) := by
      apply List.filter_congr
      intro pm _
      cases h1 : pm.2.kind == k
      · simp [h1]
      · have hkind : pm.2.kind = k := by simpa using h1
        have hnm : pm.2.kind ∉ skip := by
          rw [hkind]
          exact hk
        simp [h1, hnm]
    rw [he1, he2] at hsplit
    exact hsplit

/-- Witness evaluating C7 at explicit inputs: excluding the batch-norm kind on the
destination fixture removes exactly its one batch-norm leaf. -/
theorem C7_exclude_kind_filtering_witness :
    filteredPairs netDestW [Kind.batchNorm2d]
      = (filteredPairs netDestW []).filter (fun pm => !(pm.2.kind == Kind.batchNorm2d)) ∧
    (filteredPairs netDestW []).length
      = (filteredPairs netDestW [Kind.batchNorm2d]).length
        + ((parametrizedPairs netDestW).filter
            (fun pm => pm.2.kind == Kind.batchNorm2d)).length :=
  C7_exclude_kind_filtering netDestW Kind.batchNorm2d [] (by simp)

/-! ## C1: the structural-equivalence check -/

/-- The per-position copy loop never raises a structural mismatch: that error can only
come from the length check that precedes the loop. -/
theorem loadLoop_fst_ne_structural : ∀ (L : List (List Nat × NNModule)) (d : NNModule)
    (a b : Nat), (loadLoop d L).1 ≠ some (TransferError.structuralMismatch a b) := by
  intro L
  induction L with
  | nil => intro d a b; simp [loadLoop]
  | cons pr rest ih =>
    intro d a b
    obtain ⟨pd, sm⟩ := pr
    simp only [loadLoop]
    cases hget : d.getAt pd with
    | none => simp
    | some dm =>
      simp only
      by_cases hc : dm.sdCompatible sm = true
      · simp only [hc, if_true]
        exact ih _ a b
      · simp only [Bool.not_eq_true] at hc
        simp [hc]

/-- C1: the transfer raises the structural mismatch if and only if the filtered
parametrized-leaf sequences of source and destination have different lengths; the raised
error carries exactly the two observed lengths (source first, as in the message of line
84), and in that case the destination tree is returned unchanged — no parameter copy has
been performed. -/
theorem C1_structural_mismatch_iff (mt : ModuleTransfer) (x : Tensor) (a b : Nat) :
    ((mt.call x).1 = some (TransferError.structuralMismatch a b) ↔
      ((filteredPairs mt.dest mt.dest_skip).length ≠ (filteredPairs mt.src mt.src_skip).length ∧
        a = (filteredPairs mt.src mt.src_skip).length ∧
        b = (filteredPairs mt.dest mt.dest_skip).length)) ∧
    ((filteredPairs mt.dest mt.dest_skip).length ≠ (filteredPairs mt.src mt.src_skip).length →
      (mt.call x).2 = mt.dest) := by
  by_cases hlen : (filteredPairs mt.dest mt.dest_skip).length
      = (filteredPairs mt.src mt.src_skip).length
  · constructor
    · rw [ModuleTransfer.call]
      simp only [hlen, ne_eq, not_true_eq_false, if_false, ite_false]
      constructor
      · intro habs
        exact absurd habs (loadLoop_fst_ne_structural _ _ a b)
      · rintro ⟨hne, -⟩
        exact hne.elim
    · intro hne
      exact absurd hlen hne
  · constructor
    · rw [ModuleTransfer.call]
      simp only [hlen, ne_eq, not_false_eq_true, if_true, ite_true]
      constructor
      · intro h
        obtain ⟨h1, h2⟩ := Option.some.inj h |> TransferError.structuralMismatch.inj
        exact ⟨trivial, h1.symm, h2.symm⟩
      · rintro ⟨-, h1, h2⟩
        rw [h1, h2]
    · intro _
      rw [ModuleTransfer.call]
      simp [hlen]

/-- Witness evaluating C1 at an explicit input: the mismatch fixture (source has one
filtered leaf, destination two) raises the structural mismatch carrying lengths 1 and 2
and leaves the destination untouched. -/
theorem C1_structural_mismatch_iff_witness :
    (mtMismatchW.call xW).1 = some (TransferError.structuralMismatch 1 2) ∧
    (mtMismatchW.call xW).2 = mtMismatchW.dest := by
  constructor
  · exact ((C1_structural_mismatch_iff mtMismatchW xW 1 2).1).mpr
      ⟨by decide, by decide, by decide⟩
  · exact (C1_structural_mismatch_iff mtMismatchW xW 1 2).2 (by decide)

/-! ## C5/C6/C10: orchestration -/

/-- In the convert-all loop, any publish action for an architecture happens strictly
after that architecture's output-equivalence assertion passed. -/
theorem convertAll_push_after_assert (close : String → Bool) :
    ∀ (l : List (String × ResNetConfig)) (name : String) (e : Event),
    (e = Event.pushModel name ∨ e = Event.pushFeatureExtractor name) →
    e ∈ (convertAll close l).1 →
    close name = true ∧ ∃ l1 l2, (convertAll close l).1
      = l1 ++ Event.assertLogitsClose name true :: l2 ∧ e ∈ l2 := by
  intro l
  induction l with
  | nil =>
    intro name e he hmem
    simp [convertAll] at hmem
  | cons nc rest ih =>
    intro name e he hmem
    obtain ⟨n, cfg⟩ := nc
    by_cases hok : close n = true
    · rw [convertAll] at hmem ⊢
      simp only [hok, if_true] at hmem ⊢
      rw [List.mem_append, List.mem_append] at hmem
      rcases hmem with (hmem | hmem) | hmem
      · rcases he with rfl | rfl <;> simp at hmem
      · have hne : e = Event.pushModel n ∨ e = Event.pushFeatureExtractor n := by
          simpa using hmem
        have hname : n = name := by
          rcases he with rfl | rfl <;> rcases hne with h | h <;>
            first
              | exact (Event.pushModel.inj h).symm
              | exact (Event.pushFeatureExtractor.inj h).symm
              | exact absurd h (by simp)
        subst hname
        refine ⟨hok, [Event.createSourceModel n, Event.createDestModel n cfg,
          Event.transferWeights n],
          Event.pushModel n :: Event.pushFeatureExtractor n :: (convertAll close rest).1, ?_, ?_⟩
        · simp
        · rcases hne with rfl | rfl <;> simp
      · obtain ⟨hc, l1, l2, hsplit, hel2⟩ := ih name e he hmem
        refine ⟨hc, [Event.createSourceModel n, Event.createDestModel n cfg,
          Event.transferWeights n, Event.assertLogitsClose n true,
          Event.pushModel n, Event.pushFeatureExtractor n] ++ l1, l2, ?_, hel2⟩
        rw [hsplit]
        simp
    · simp only [Bool.not_eq_true] at hok
      rw [convertAll] at hmem
      simp only [hok, Bool.false_eq_true, if_false] at hmem
      rcases he with rfl | rfl <;> simp at hmem

/-- In the single-architecture path, any publish action happens strictly after the
assertion passed (and is the model push — this path never pushes the extractor). -/
theorem convert_weight_and_push_after_assert (close : String → Bool) (n : String)
    (cfg : ResNetConfig) (name : String) (e : Event)
    (he : e = Event.pushModel name ∨ e = Event.pushFeatureExtractor name)
    (hmem : e ∈ (convert_weight_and_push close n cfg).1) :
    close name = true ∧ ∃ l1 l2, (convert_weight_and_push close n cfg).1
      = l1 ++ Event.assertLogitsClose name true :: l2 ∧ e ∈ l2 := by
  by_cases hok : close n = true
  · rw [convert_weight_and_push] at hmem ⊢
    simp only [hok, if_true] at hmem ⊢
    rw [List.mem_append] at hmem
    rcases hmem with hmem | hmem
    · rcases he with rfl | rfl <;> simp at hmem
    · have hne : e = Event.pushModel n := by simpa using hmem
      have hname : n = name := by
        rcases he with rfl | rfl
        · exact (Event.pushModel.inj hne).symm
        · exact absurd hne (by simp)
      subst hname
      refine ⟨hok, [Event.createSourceModel n, Event.createDestModel n cfg,
        Event.transferWeights n], [Event.pushModel n], by simp, by simp [hne]⟩
  · simp only [Bool.not_eq_true] at hok
    rw [convert_weight_and_push] at hmem
    simp only [hok, Bool.false_eq_true, if_false] at hmem
    rcases he with rfl | rfl <;> simp at hmem

/-- C5 refuted at an explicit input: converting `resnet50` through the single-model path
with a passing output-equivalence check succeeds (no error, the model is pushed), yet the
companion pre/post-processing metadata is not published — only the convert-all loop
pushes the feature extractor. -/
theorem C5_counterexample_single_path_no_metadata :
    (convert_weights_and_push (fun _ => true) (some "resnet50")).2 = none ∧
    Event.pushModel "resnet50" ∈ (convert_weights_and_push (fun _ => true) (some "resnet50")).1 ∧
    Event.pushFeatureExtractor "resnet50" ∉
      (convert_weights_and_push (fun _ => true) (some "resnet50")).1 :=
  ⟨by decide, by decide, by decide⟩

/-- C5 as amended: every publish action runs only after that architecture's
output-equivalence assertion has passed (and is preceded by it in the event order); on a
mismatch the conversion aborts with nothing published for that architecture.  On success
the destination model is published, and the companion pre/post-processing metadata is
published as well in the convert-all path — but the single-model path publishes only the
model, with no metadata push. -/
theorem C5_publish_gated_by_assertion :
    (∀ (close : String → Bool) (mn : Option String) (name : String) (e : Event),
      (e = Event.pushModel name ∨ e = Event.pushFeatureExtractor name) →
      e ∈ (convert_weights_and_push close mn).1 →
      close name = true ∧ ∃ l1 l2, (convert_weights_and_push close mn).1
        = l1 ++ Event.assertLogitsClose name true :: l2 ∧ e ∈ l2) ∧
    (∀ (close : String → Bool) (name : String) (config : ResNetConfig), name ≠ "" →
      lookupConfig name = some config →
      Event.pushFeatureExtractor name ∉ (convert_weights_and_push close (some name)).1) ∧
    (∀ (close : String → Bool) (name : String) (config : ResNetConfig), name ≠ "" →
      lookupConfig name = some config → close name = true →
      Event.pushModel name ∈ (convert_weights_and_push close (some name)).1) ∧
    (∀ (name : String) (config : ResNetConfig), (name, config) ∈ names_to_config →
      Event.pushModel name ∈ (convert_weights_and_push (fun _ => true) none).1 ∧
      Event.pushFeatureExtractor name ∈ (convert_weights_and_push (fun _ => true) none).1) := by
  refine ⟨?_, ?_, ?_, ?_⟩
  · intro close mn name e he hmem
    match mn with
    | none =>
      exact convertAll_push_after_assert close names_to_config name e he hmem
    | some n =>
      by_cases hn : n ≠ ""
      · rw [convert_weights_and_push] at hmem ⊢
        rw [if_pos hn] at hmem ⊢
        cases hlook : lookupConfig n with
        | none =>
          rw [hlook] at hmem
          exact absurd hmem (List.not_mem_nil _)
        | some cfg =>
          rw [hlook] at hmem
          exact convert_weight_and_push_after_assert close n cfg name e he hmem
      · rw [convert_weights_and_push] at hmem ⊢
        rw [if_neg hn] at hmem ⊢
        exact convertAll_push_after_assert close names_to_config name e he hmem
  · intro close name config hname hlook
    rw [convert_weights_and_push]
    simp only [hname, if_true, hlook]
    rw [convert_weight_and_push]
    by_cases hok : close name = true <;> simp [hok, hname]
  · intro close name config hname hlook hok
    rw [convert_weights_and_push]
    simp only [hname, if_true, hlook]
    rw [convert_weight_and_push]
    simp [hok, hname]
  · intro name config hmem
    fin_cases hmem <;> exact ⟨by decide, by decide⟩

/-- Witness evaluating C5 at explicit inputs: in a convert-all run where every
equivalence check passes, the `resnet18` model push is preceded by its passed assertion. -/
theorem C5_publish_gated_by_assertion_witness :
    (fun (_ : String) => true) "resnet18" = true ∧
    ∃ l1 l2, (convert_weights_and_push (fun _ => true) none).1
      = l1 ++ Event.assertLogitsClose "resnet18" true :: l2 ∧
      Event.pushModel "resnet18" ∈ l2 :=
  C5_publish_gated_by_assertion.1 (fun _ => true) none "resnet18"
    (Event.pushModel "resnet18") (Or.inl rfl) (by decide)

/-- C6: the conversion table and the CLI dispatch: the six architectures carry exactly
the claimed depths, hidden sizes and block kinds; an omitted `--model_name` converts
every entry of the table in order; a supplied (non-empty) known name converts exactly
that one entry with the table's configuration. -/
theorem C6_table_and_dispatch :
    names_to_config.map (fun p => (p.1, p.2.depths, p.2.hidden_sizes, p.2.layer_type)) =
      [("resnet18", [2, 2, 2, 2], [64, 64, 128, 256, 512], "basic"),
       ("resnet26", [2, 2, 2, 2], [64, 256, 512, 1024, 2048], "bottleneck"),
       ("resnet34", [3, 4, 6, 3], [64, 64, 128, 256, 512], "basic"),
       ("resnet50", [3, 4, 6, 3], [64, 256, 512, 1024, 2048], "bottleneck"),
       ("resnet101", [3, 4, 23, 3], [64, 256, 512, 1024, 2048], "bottleneck"),
       ("resnet152", [3, 8, 36, 3], [64, 256, 512, 1024, 2048], "bottleneck")] ∧
    (∀ close : String → Bool,
      convert_weights_and_push close none = convertAll close names_to_config) ∧
    destBuilds (convert_weights_and_push (fun _ => true) none).1 = names_to_config ∧
    (∀ (close : String → Bool) (name : String) (config : ResNetConfig), name ≠ "" →
      lookupConfig name = some config →
      convert_weights_and_push close (some name) = convert_weight_and_push close name config ∧
      destBuilds (convert_weights_and_push close (some name)).1 = [(name, config)]) := by
  refine ⟨by decide, fun close => rfl, by decide, ?_⟩
  intro close name config hname hlook
  have hd : convert_weights_and_push close (some name)
      = convert_weight_and_push close name config := by
    rw [convert_weights_and_push]
    simp [hname, hlook]
  refine ⟨hd, ?_⟩
  rw [hd, convert_weight_and_push]
  by_cases hok : close name = true <;> simp [hok, destBuilds]

/-- Witness evaluating C6 at an explicit input: `--model_name resnet34` converts exactly
the `resnet34` entry with the table's configuration. -/
theorem C6_table_and_dispatch_witness :
    convert_weights_and_push (fun _ => true) (some "resnet34")
      = convert_weight_and_push (fun _ => true) "resnet34"
          (ImageNetPreTrainedConfig [3, 4, 6, 3] [64, 64, 128, 256, 512] "basic") ∧
    destBuilds (convert_weights_and_push (fun _ => true) (some "resnet34")).1
      = [("resnet34", ImageNetPreTrainedConfig [3, 4, 6, 3] [64, 64, 128, 256, 512] "basic")] :=
  C6_table_and_dispatch.2.2.2 (fun _ => true) "resnet34"
    (ImageNetPreTrainedConfig [3, 4, 6, 3] [64, 64, 128, 256, 512] "basic")
    (by decide) (by decide)

/-- C10 refuted at an explicit input: `--model_name ""` is supplied and is not one of the
six known names, yet Python's truthiness test `if model_name:` routes it to the
convert-all loop — all six models are built and the run succeeds with no key-lookup
error. -/
theorem C10_counterexample_empty_name :
    lookupConfig "" = none ∧
    (convert_weights_and_push (fun _ => true) (some "")).2 = none ∧
    destBuilds (convert_weights_and_push (fun _ => true) (some "")).1 = names_to_config :=
  ⟨by decide, by decide, by decide⟩

/-- C10 as amended: when `--model_name` is supplied, non-empty, and not one of the six
known architecture names, the run fails with the `KeyError` of the table lookup and the
event trace is empty — no source or destination model is built, no transfer is attempted,
and nothing is published. -/
theorem C10_unknown_name_key_error (close : String → Bool) (name : String)
    (hname : name ≠ "") (hlook : lookupConfig name = none) :
    convert_weights_and_push close (some name) = ([], some (RunError.keyError name)) := by
  rw [convert_weights_and_push]
  simp [hname, hlook]

/-- Witness evaluating C10 at an explicit input: `--model_name resnet10` aborts with the
key error before any action. -/
theorem C10_unknown_name_key_error_witness :
    convert_weights_and_push (fun _ => true) (some "resnet10")
      = ([], some (RunError.keyError "resnet10")) :=
  C10_unknown_name_key_error (fun _ => true) "resnet10" (by decide) (by decide)

/-! ## Entry-level lemmas -/

theorem eraseEntries_append (l1 l2 : List (String × Tensor)) :
    eraseEntries (l1 ++ l2) = eraseEntries l1 ++ eraseEntries l2 :=
  List.map_append _ _ _

theorem lookupT_eraseEntries (l : List (String × Tensor)) (k : String) :
    lookupT (eraseEntries l) k = (lookupT l k).map eraseShape := by
  induction l with
  | nil => rfl
  | cons kv rest ih =>
    by_cases h : kv.1 == k
    · simp [lookupT, eraseEntries, List.find?_cons, h]
    · simp only [Bool.not_eq_true] at h
      simp only [lookupT, eraseEntries, List.map_cons, List.find?_cons, h] at ih ⊢
      exact ih

theorem eraseEntries_copyEntries (own src : List (String × Tensor)) :
    eraseEntries (copyEntries own src) = eraseEntries own := by
  induction own with
  | nil => rfl
  | cons kv rest ih =>
    simp only [copyEntries, List.map_cons, eraseEntries] at ih ⊢
    refine congrArg₂ _ ?_ ih
    cases hl : lookupT src kv.1 with
    | none => rfl
    | some t =>
      by_cases hs : t.shape == kv.2.shape
      · have : t.shape = kv.2.shape := by simpa using hs
        simp [hs, eraseShape, this]
      · simp only [Bool.not_eq_true] at hs
        simp [hs]

theorem copyEntries_copyEntries (own src : List (String × Tensor)) :
    copyEntries (copyEntries own src) src = copyEntries own src := by
  induction own with
  | nil => rfl
  | cons kv rest ih =>
    simp only [copyEntries, List.map_cons] at ih ⊢
    refine congrArg₂ _ ?_ ih
    cases hl : lookupT src kv.1 with
    | none => simp [hl]
    | some t =>
      by_cases hs : t.shape == kv.2.shape
      · simp [hl, hs]
      · simp only [Bool.not_eq_true] at hs
        simp [hl, hs]

theorem copyEntries_congr : ∀ (own own' src : List (String × Tensor)),
    eraseEntries own = eraseEntries own' →
    own.all (fun kv =>
      match lookupT src kv.1 with
      | some t => t.shape == kv.2.shape
      | none => false) = true →
    copyEntries own src = copyEntries own' src := by
  intro own
  induction own with
  | nil =>
    intro own' src hsk _
    cases own' with
    | nil => rfl
    | cons kv rest => simp [eraseEntries] at hsk
  | cons kv rest ih =>
    intro own' src hsk hcov
    cases own' with
    | nil => simp [eraseEntries] at hsk
    | cons kv' rest' =>
      simp only [eraseEntries, List.map_cons, List.cons.injEq] at hsk
      obtain ⟨hhead, htail⟩ := hsk
      have hname : kv.1 = kv'.1 := (Prod.ext_iff.mp hhead).1
      have hshape : kv.2.shape = kv'.2.shape := by
        have := (Prod.ext_iff.mp hhead).2
        simpa [eraseShape, Tensor.mk.injEq] using this
      simp only [List.all_cons, Bool.and_eq_true] at hcov
      obtain ⟨hc1, hc2⟩ := hcov
      simp only [copyEntries, List.map_cons]
      refine congrArg₂ _ ?_ (ih rest' src htail hc2)
      cases hl : lookupT src kv.1 with
      | none => rw [hl] at hc1; exact absurd hc1 (by simp)
      | some t =>
        rw [hl] at hc1
        have hts : t.shape = kv.2.shape := by simpa using hc1
        rw [← hname, hl]
        simp only [hts, hshape]
        simp [← hshape, hts, hname]

theorem copyEntries_agree (own src : List (String × Tensor))
    (hcov : own.all (fun kv =>
      match lookupT src kv.1 with
      | some t => t.shape == kv.2.shape
      | none => false) = true) :
    (copyEntries own src).all (fun kv => lookupT src kv.1 == some kv.2) = true := by
  induction own with
  | nil => rfl
  | cons kv rest ih =>
    simp only [List.all_cons, Bool.and_eq_true] at hcov
    obtain ⟨hc1, hc2⟩ := hcov
    simp only [copyEntries, List.map_cons, List.all_cons, Bool.and_eq_true]
    refine ⟨?_, ih hc2⟩
    cases hl : lookupT src kv.1 with
    | none => rw [hl] at hc1; exact absurd hc1 (by simp)
    | some t =>
      rw [hl] at hc1
      have hts : t.shape = kv.2.shape := by simpa using hc1
      simp [hl, hts]

theorem entriesCompatible_erase (a c : List (String × Tensor)) :
    entriesCompatible (eraseEntries a) (eraseEntries c) = entriesCompatible a c := by
  simp only [entriesCompatible]
  refine congrArg₂ _ ?_ ?_
  · simp only [eraseEntries, List.all_map]
    apply congrArg
    funext kv
    simp only [Function.comp]
    have hl := lookupT_eraseEntries c kv.1
    simp only [eraseEntries] at hl
    rw [hl]
    cases lookupT c kv.1 with
    | none => rfl
    | some t => simp [eraseShape]
  · simp only [eraseEntries, List.all_map]
    apply congrArg
    funext kv
    simp only [Function.comp]
    have hl := lookupT_eraseEntries a kv.1
    simp only [eraseEntries] at hl
    rw [hl]
    cases lookupT a kv.1 with
    | none => rfl
    | some t => rfl

/-! ## Skeleton invariance lemmas -/

theorem NNModule.skel_kind (m : NNModule) : m.skel.kind = m.kind := by
  cases m with
  | mk k p b cs => rfl

theorem NNModule.skel_children (m : NNModule) :
    m.skel.children = NNModules.skelList m.children := by
  cases m with
  | mk k p b cs => rfl

theorem NNModules.skelList_length : ∀ cs : NNModules,
    (NNModules.skelList cs).length = cs.length
  | .nil => rfl
  | .cons c rest => by
    simp only [NNModules.skelList, NNModules.length]
    rw [NNModules.skelList_length rest]

theorem NNModules.skelList_get? : ∀ (cs : NNModules) (i : Nat),
    (NNModules.skelList cs).get? i = (cs.get? i).map NNModule.skel
  | .nil, _ => rfl
  | .cons c rest, 0 => rfl
  | .cons c rest, n + 1 => by
    simp only [NNModules.skelList, NNModules.get?]
    exact NNModules.skelList_get? rest n

mutual
theorem NNModule.skel_modulesList_length : ∀ m : NNModule,
    m.skel.modulesList.length = m.modulesList.length
  | .mk k p b cs => by
    simp only [NNModule.skel, NNModule.modulesList, List.length_cons]
    rw [NNModules.skelList_modulesAll_length cs]

theorem NNModules.skelList_modulesAll_length : ∀ cs : NNModules,
    (NNModules.modulesAll (NNModules.skelList cs)).length = (NNModules.modulesAll cs).length
  | .nil => rfl
  | .cons c rest => by
    simp only [NNModules.skelList, NNModules.modulesAll, List.length_append]
    rw [NNModule.skel_modulesList_length c, NNModules.skelList_modulesAll_length rest]
end

theorem hasNotSubmodules_skel (m : NNModule) :
    hasNotSubmodules m.skel = hasNotSubmodules m := by
  simp only [hasNotSubmodules]
  rw [NNModule.skel_kind, NNModule.skel_modulesList_length]

mutual
theorem NNModule.skel_stateDict_length : ∀ m : NNModule,
    m.skel.stateDict.length = m.stateDict.length
  | .mk k p b cs => by
    simp only [NNModule.skel, NNModule.stateDict, List.length_append, eraseEntries,
      List.length_map]
    rw [NNModules.skelList_childDicts_length 0 cs]

theorem NNModules.skelList_childDicts_length : ∀ (i : Nat) (cs : NNModules),
    (NNModules.childDicts i (NNModules.skelList cs)).length = (NNModules.childDicts i cs).length
  | _, .nil => rfl
  | i, .cons c rest => by
    simp only [NNModules.skelList, NNModules.childDicts, List.length_append, List.length_map]
    rw [NNModule.skel_stateDict_length c, NNModules.skelList_childDicts_length (i + 1) rest]
end

mutual
theorem NNModule.sdCompatible_skel : ∀ d s : NNModule,
    d.skel.sdCompatible s.skel = d.sdCompatible s
  | .mk k p b cs, .mk k2 p2 b2 cs2 => by
    simp only [NNModule.skel, NNModule.sdCompatible]
    rw [← eraseEntries_append, ← eraseEntries_append, entriesCompatible_erase,
      NNModules.sdCompatibleList_skel cs cs2]

theorem NNModules.sdCompatibleList_skel : ∀ cs ds : NNModules,
    NNModules.sdCompatibleList (NNModules.skelList cs) (NNModules.skelList ds)
      = NNModules.sdCompatibleList cs ds
  | .nil, .nil => rfl
  | .nil, .cons _ _ => rfl
  | .cons _ _, .nil => rfl
  | .cons c rest, .cons d ds => by
    simp only [NNModules.skelList, NNModules.sdCompatibleList]
    rw [NNModule.sdCompatible_skel c d, NNModules.sdCompatibleList_skel rest ds]
end

mutual
theorem NNModule.loadFrom_skel : ∀ d s : NNModule, (d.loadFrom s).skel = d.skel
  | .mk k p b cs, .mk k2 p2 b2 cs2 => by
    simp only [NNModule.loadFrom, NNModule.skel]
    rw [eraseEntries_copyEntries, eraseEntries_copyEntries,
      NNModules.loadFromList_skelList cs cs2]

theorem NNModules.loadFromList_skelList : ∀ cs ds : NNModules,
    NNModules.skelList (NNModules.loadFromList cs ds) = NNModules.skelList cs
  | .nil, _ => rfl
  | .cons c rest, .nil => rfl
  | .cons c rest, .cons d ds => by
    simp only [NNModules.loadFromList, NNModules.skelList]
    rw [NNModule.loadFrom_skel c d, NNModules.loadFromList_skelList rest ds]
end

mutual
theorem NNModule.loadFrom_congr : ∀ X Y s : NNModule, X.skel = Y.skel →
    X.sdCompatible s = true → X.loadFrom s = Y.loadFrom s
  | .mk kX pX bX csX, .mk kY pY bY csY, .mk kS pS bS csS => by
    intro hsk hc
    simp only [NNModule.skel, NNModule.mk.injEq] at hsk
    obtain ⟨hk, hp, hb, hcs⟩ := hsk
    simp only [NNModule.sdCompatible, Bool.and_eq_true] at hc
    obtain ⟨hce, hcl⟩ := hc
    simp only [entriesCompatible, Bool.and_eq_true, List.all_append] at hce
    obtain ⟨⟨hcp, hcb⟩, -⟩ := hce
    simp only [NNModule.loadFrom]
    rw [hk, copyEntries_congr pX pY (pS ++ bS) hp hcp,
      copyEntries_congr bX bY (pS ++ bS) hb hcb,
      NNModules.loadFromList_congr csX csY csS hcs hcl]

theorem NNModules.loadFromList_congr : ∀ cs cs' ds : NNModules,
    NNModules.skelList cs = NNModules.skelList cs' →
    NNModules.sdCompatibleList cs ds = true →
    NNModules.loadFromList cs ds = NNModules.loadFromList cs' ds
  | .nil, .nil, _ => by intro _ _; rfl
  | .nil, .cons _ _, _ => by intro h _; exact absurd h (by simp [NNModules.skelList])
  | .cons _ _, .nil, _ => by intro h _; exact absurd h (by simp [NNModules.skelList])
  | .cons c rest, .cons c' rest', .nil => by
    intro _ hc
    exact absurd hc (by simp [NNModules.sdCompatibleList])
  | .cons c rest, .cons c' rest', .cons d ds => by
    intro hsk hc
    simp only [NNModules.skelList, NNModules.cons.injEq] at hsk
    obtain ⟨h1, h2⟩ := hsk
    simp only [NNModules.sdCompatibleList, Bool.and_eq_true] at hc
    obtain ⟨hc1, hc2⟩ := hc
    simp only [NNModules.loadFromList]
    rw [NNModule.loadFrom_congr c c' d h1 hc1, NNModules.loadFromList_congr rest rest' ds h2 hc2]
end

/-! ## Path and update lemmas -/

theorem NNModules.set_length : ∀ (cs : NNModules) (i : Nat) (x : NNModule),
    (cs.set i x).length = cs.length
  | .nil, _, _ => rfl
  | .cons _ rest, 0, _ => rfl
  | .cons c rest, n + 1, x => by
    simp only [NNModules.set, NNModules.length]
    rw [NNModules.set_length rest n x]

theorem NNModules.get?_set_eq : ∀ (cs : NNModules) (i : Nat) (c x : NNModule),
    cs.get? i = some c → (cs.set i x).get? i = some x
  | .nil, _, _, _ => by intro h; simp [NNModules.get?] at h
  | .cons a rest, 0, c, x => by intro _; rfl
  | .cons a rest, n + 1, c, x => by
    intro h
    simp only [NNModules.get?] at h
    simp only [NNModules.set, NNModules.get?]
    exact NNModules.get?_set_eq rest n c x h

theorem NNModules.get?_set_ne : ∀ (cs : NNModules) (i j : Nat) (x : NNModule),
    i ≠ j → (cs.set i x).get? j = cs.get? j
  | .nil, _, _, _ => by intro _; rfl
  | .cons a rest, 0, 0, x => by intro h; exact absurd rfl h
  | .cons a rest, 0, j + 1, x => by intro _; rfl
  | .cons a rest, i + 1, 0, x => by intro _; rfl
  | .cons a rest, i + 1, j + 1, x => by
    intro h
    simp only [NNModules.set, NNModules.get?]
    exact NNModules.get?_set_ne rest i j x (by omega)

theorem NNModules.skelList_set : ∀ (cs : NNModules) (i : Nat) (c c' : NNModule),
    cs.get? i = some c → c'.skel = c.skel →
    NNModules.skelList (cs.set i c') = NNModules.skelList cs
  | .nil, _, _, _ => by intro h _; simp [NNModules.get?] at h
  | .cons a rest, 0, c, c' => by
    intro h hsk
    obtain rfl : a = c := Option.some.inj h
    simp only [NNModules.set, NNModules.skelList]
    rw [hsk]
  | .cons a rest, n + 1, c, c' => by
    intro h hsk
    simp only [NNModules.get?] at h
    simp only [NNModules.set, NNModules.skelList]
    rw [NNModules.skelList_set rest n c c' h hsk]

theorem NNModule.updateAt_skel (f : NNModule → NNModule) (hf : ∀ u, (f u).skel = u.skel) :
    ∀ (p : List Nat) (m : NNModule), (NNModule.updateAt f m p).skel = m.skel
  | [], m => by simp only [NNModule.updateAt]; exact hf m
  | i :: q, m => by
    cases m with
    | mk k pr b cs =>
      simp only [NNModule.updateAt]
      cases hg : cs.get? i with
      | none => rfl
      | some c =>
        simp only [NNModule.skel, NNModule.mk.injEq, true_and]
        exact NNModules.skelList_set cs i c _ hg (NNModule.updateAt_skel f hf q c)

theorem NNModule.getAt_skel : ∀ (q : List Nat) (m : NNModule),
    m.skel.getAt q = (m.getAt q).map NNModule.skel
  | [], m => rfl
  | i :: r, m => by
    simp only [NNModule.getAt]
    rw [NNModule.skel_children, NNModules.skelList_get?]
    cases hg : m.children.get? i with
    | none => rfl
    | some c =>
      simp only [Option.map_some]
      exact NNModule.getAt_skel r c

mutual
theorem NNModule.loadFrom_loadFrom : ∀ d s : NNModule, (d.loadFrom s).loadFrom s = d.loadFrom s
  | .mk kX pX bX csX, .mk kS pS bS csS => by
    simp only [NNModule.loadFrom]
    rw [copyEntries_copyEntries, copyEntries_copyEntries,
      NNModules.loadFromList_loadFromList csX csS]

theorem NNModules.loadFromList_loadFromList : ∀ cs ds : NNModules,
    NNModules.loadFromList (NNModules.loadFromList cs ds) ds = NNModules.loadFromList cs ds
  | .nil, _ => rfl
  | .cons c rest, .nil => rfl
  | .cons c rest, .cons d ds => by
    simp only [NNModules.loadFromList]
    rw [NNModule.loadFrom_loadFrom c d, NNModules.loadFromList_loadFromList rest ds]
end

theorem NNModule.getAt_updateAt_append (f : NNModule → NNModule) :
    ∀ (p r : List Nat) (m u : NNModule), m.getAt p = some u →
    (NNModule.updateAt f m p).getAt (p ++ r) = (f u).getAt r
  | [], r, m, u => by
    intro h
    obtain rfl : m = u := Option.some.inj h
    simp [NNModule.updateAt]
  | i :: q, r, m, u => by
    intro h
    cases m with
    | mk k pr b cs =>
      have hch : NNModule.children (.mk k pr b cs) = cs := rfl
      simp only [NNModule.getAt, hch] at h
      cases hg : cs.get? i with
      | none => rw [hg] at h; simp at h
      | some c =>
        rw [hg] at h
        simp only at h
        simp only [NNModule.updateAt, hg, List.cons_append, NNModule.getAt, hch,
          NNModule.children]
        rw [NNModules.get?_set_eq cs i c _ hg]
        exact NNModule.getAt_updateAt_append f q r c u h

theorem NNModule.getAt_updateAt_self (f : NNModule → NNModule) (p : List Nat)
    (m u : NNModule) (h : m.getAt p = some u) :
    (NNModule.updateAt f m p).getAt p = some (f u) := by
  have := NNModule.getAt_updateAt_append f p [] m u h
  rw [List.append_nil] at this
  rw [this]
  rfl

theorem NNModule.getAt_updateAt_divergent (f : NNModule → NNModule) :
    ∀ (p q : List Nat) (m : NNModule), isPreB p q = false → isPreB q p = false →
    (NNModule.updateAt f m p).getAt q = m.getAt q
  | [], q, m => by intro h _; simp [isPreB] at h
  | _ :: _, [], m => by intro _ h; simp [isPreB] at h
  | i :: p, j :: q, m => by
    intro hpq hqp
    cases m with
    | mk k pr b cs =>
      have hch : NNModule.children (.mk k pr b cs) = cs := rfl
      by_cases hij : i = j
      · subst hij
        simp only [isPreB, beq_self_eq_true, Bool.true_and] at hpq hqp
        simp only [NNModule.updateAt]
        cases hg : cs.get? i with
        | none => rfl
        | some c =>
          simp only [NNModule.getAt, hch, NNModule.children]
          rw [NNModules.get?_set_eq cs i c _ hg, hg]
          simp only
          exact NNModule.getAt_updateAt_divergent f p q c hpq hqp
      · simp only [NNModule.updateAt]
        cases hg : cs.get? i with
        | none => rfl
        | some c =>
          simp only [NNModule.getAt, hch, NNModule.children]
          rw [NNModules.get?_set_ne cs i j _ hij]

theorem NNModule.getAt_updateAt_nodeLocal (f : NNModule → NNModule) :
    ∀ (p q : List Nat) (m : NNModule), isPreB p q = false →
    ((NNModule.updateAt f m p).getAt q).map nodeLocal = (m.getAt q).map nodeLocal
  | [], q, m => by intro h; simp [isPreB] at h
  | i :: p, [], m => by
    intro _
    cases m with
    | mk k pr b cs =>
      simp only [NNModule.updateAt]
      cases hg : cs.get? i with
      | none => rfl
      | some c =>
        simp [NNModule.getAt, nodeLocal, NNModule.kind,
          NNModule.params, NNModule.buffers, NNModule.children, NNModules.set_length]
  | i :: p, j :: q, m => by
    intro hpq
    cases m with
    | mk k pr b cs =>
      have hch : NNModule.children (.mk k pr b cs) = cs := rfl
      by_cases hij : i = j
      · subst hij
        simp only [isPreB, beq_self_eq_true, Bool.true_and] at hpq
        simp only [NNModule.updateAt]
        cases hg : cs.get? i with
        | none => rfl
        | some c =>
          simp only [NNModule.getAt, hch, NNModule.children]
          rw [NNModules.get?_set_eq cs i c _ hg, hg]
          simp only
          exact NNModule.getAt_updateAt_nodeLocal f p q c hpq
      · simp only [NNModule.updateAt]
        cases hg : cs.get? i with
        | none => rfl
        | some c =>
          simp only [NNModule.getAt, hch, NNModule.children]
          rw [NNModules.get?_set_ne cs i j _ hij]

theorem isPreB_append : ∀ p r : List Nat, isPreB p (p ++ r) = true
  | [], _ => rfl
  | a :: p, r => by
    simp only [List.cons_append, isPreB, beq_self_eq_true, Bool.true_and]
    exact isPreB_append p r

theorem isPreB_iff : ∀ p q : List Nat, isPreB p q = true ↔ ∃ r, q = p ++ r := by
  intro p
  induction p with
  | nil => intro q; simp [isPreB]
  | cons a p ih =>
    intro q
    cases q with
    | nil => simp [isPreB]
    | cons b q =>
      simp only [isPreB, Bool.and_eq_true, beq_iff_eq]
      rw [ih q]
      constructor
      · rintro ⟨rfl, r, rfl⟩
        exact ⟨r, rfl⟩
      · rintro ⟨r, hr⟩
        simp only [List.cons_append, List.cons.injEq] at hr
        exact ⟨hr.1.symm, r, hr.2⟩

/-! ## Extensionality: trees agreeing locally at every path are equal -/

theorem NNModule.getAt_cons (k : Kind) (p b : List (String × Tensor)) (cs : NNModules)
    (i : Nat) (q : List Nat) :
    (NNModule.mk k p b cs).getAt (i :: q) = getAtChild cs i q := by
  simp only [NNModule.getAt, getAtChild, NNModule.children]
  cases cs.get? i <;> rfl

mutual
theorem NNModule.ext_nodeLocal : ∀ X Y : NNModule,
    (∀ q, (X.getAt q).map nodeLocal = (Y.getAt q).map nodeLocal) → X = Y
  | .mk kX pX bX csX, .mk kY pY bY csY => by
    intro h
    have h0 := h []
    simp only [NNModule.getAt, Option.map_some] at h0
    have h0' := Option.some.inj h0
    simp only [nodeLocal, NNModule.kind, NNModule.params, NNModule.buffers,
      NNModule.children, Prod.mk.injEq] at h0'
    obtain ⟨hk, hp, hb, hlen⟩ := h0'
    have hch : csX = csY := NNModules.extList_nodeLocal csX csY hlen (fun i q => by
      have hq := h (i :: q)
      rw [NNModule.getAt_cons, NNModule.getAt_cons] at hq
      exact hq)
    rw [hk, hp, hb, hch]

theorem NNModules.extList_nodeLocal : ∀ cs ds : NNModules, cs.length = ds.length →
    (∀ i q, (getAtChild cs i q).map nodeLocal = (getAtChild ds i q).map nodeLocal) →
    cs = ds
  | .nil, .nil, _, _ => rfl
  | .nil, .cons _ _, h, _ => by simp [NNModules.length] at h
  | .cons _ _, .nil, h, _ => by simp [NNModules.length] at h
  | .cons c rest, .cons d ds, hlen, h => by
    have hc : c = d := NNModule.ext_nodeLocal c d (fun q => by
      have := h 0 q
      simpa [getAtChild, NNModules.get?] using this)
    have hr : rest = ds := NNModules.extList_nodeLocal rest ds
      (by simpa [NNModules.length] using hlen)
      (fun i q => by
        have := h (i + 1) q
        simpa [getAtChild, NNModules.get?] using this)
    rw [hc, hr]
end

/-! ## Trace sequences and skeletons -/

mutual
theorem NNModule.postOrderP_skel : ∀ (m : NNModule) (path : List Nat),
    m.skel.postOrderP path = (m.postOrderP path).map (fun pm => (pm.1, pm.2.skel))
  | .mk k p b cs, path => by
    simp only [NNModule.skel, NNModule.postOrderP, List.map_append]
    rw [NNModules.postOrderChildren_skel cs path 0]
    simp [NNModule.skel]

theorem NNModules.postOrderChildren_skel : ∀ (cs : NNModules) (path : List Nat) (i : Nat),
    NNModules.postOrderChildren (NNModules.skelList cs) path i
      = (NNModules.postOrderChildren cs path i).map (fun pm => (pm.1, pm.2.skel))
  | .nil, _, _ => rfl
  | .cons c rest, path, i => by
    simp only [NNModules.skelList, NNModules.postOrderChildren, List.map_append]
    rw [NNModule.postOrderP_skel c (path ++ [i]),
      NNModules.postOrderChildren_skel rest path (i + 1)]
end

theorem filteredPairs_skel (m : NNModule) (skip : List Kind) :
    filteredPairs m.skel skip = (filteredPairs m skip).map (fun pm => (pm.1, pm.2.skel)) := by
  rw [filteredPairs, filteredPairs, parametrizedPairs, parametrizedPairs,
    tracedPairs, tracedPairs, NNModule.postOrderP_skel]
  rw [List.filter_map, List.filter_map, List.filter_map]
  congr 2
  · funext pm
    simp [Function.comp, NNModule.skel_kind]
  · congr 1
    · funext pm
      simp [Function.comp, NNModule.skel_stateDict_length]
    · congr 1
      funext pm
      simp [Function.comp, hasNotSubmodules_skel]

theorem filteredPairs_fst_of_skel (X Y : NNModule) (skip : List Kind) (h : X.skel = Y.skel) :
    (filteredPairs X skip).map (·.1) = (filteredPairs Y skip).map (·.1) := by
  have hm : (filteredPairs X skip).map (fun pm => (pm.1, pm.2.skel))
      = (filteredPairs Y skip).map (fun pm => (pm.1, pm.2.skel)) := by
    rw [← filteredPairs_skel, ← filteredPairs_skel, h]
  have h1 := congrArg (List.map (fun pm : List Nat × NNModule => pm.1)) hm
  simpa [List.map_map, Function.comp] using h1

theorem filteredPairs_length_of_skel (X Y : NNModule) (skip : List Kind)
    (h : X.skel = Y.skel) :
    (filteredPairs X skip).length = (filteredPairs Y skip).length := by
  have := congrArg List.length (filteredPairs_fst_of_skel X Y skip h)
  simpa using this

/-! ## Trace paths are valid references -/

mutual
theorem NNModule.postOrderP_getAt : ∀ (m : NNModule) (base : List Nat)
    (pm : List Nat × NNModule), pm ∈ m.postOrderP base →
    ∃ r, pm.1 = base ++ r ∧ m.getAt r = some pm.2
  | .mk k p b cs, base, pm => by
    intro hmem
    simp only [NNModule.postOrderP, List.mem_append, List.mem_singleton] at hmem
    rcases hmem with hmem | rfl
    · obtain ⟨j, c, r, hg, hpath, hget⟩ :=
        NNModules.postOrderChildren_getAt cs base 0 pm hmem
      rw [Nat.zero_add] at hpath
      refine ⟨j :: r, hpath, ?_⟩
      simp only [NNModule.getAt, NNModule.children]
      rw [hg]
      exact hget
    · exact ⟨[], by simp, rfl⟩

theorem NNModules.postOrderChildren_getAt : ∀ (cs : NNModules) (path : List Nat) (i : Nat)
    (pm : List Nat × NNModule), pm ∈ NNModules.postOrderChildren cs path i →
    ∃ j c r, cs.get? j = some c ∧ pm.1 = path ++ (i + j) :: r ∧ c.getAt r = some pm.2
  | .nil, _, _, pm => by
    intro h
    simp [NNModules.postOrderChildren] at h
  | .cons c rest, path, i, pm => by
    intro hmem
    simp only [NNModules.postOrderChildren, List.mem_append] at hmem
    rcases hmem with hmem | hmem
    · obtain ⟨r, hpath, hget⟩ := NNModule.postOrderP_getAt c (path ++ [i]) pm hmem
      refine ⟨0, c, r, rfl, ?_, hget⟩
      rw [hpath]
      simp
    · obtain ⟨j, c', r, hg, hpath, hget⟩ :=
        NNModules.postOrderChildren_getAt rest path (i + 1) pm hmem
      refine ⟨j + 1, c', r, by simpa [NNModules.get?] using hg, ?_, hget⟩
      rw [hpath]
      have : i + 1 + j = i + (j + 1) := by omega
      rw [this]
end

theorem filteredPairs_getAt (m : NNModule) (skip : List Kind) (pm : List Nat × NNModule)
    (hmem : pm ∈ filteredPairs m skip) : m.getAt pm.1 = some pm.2 := by
  have h1 : pm ∈ m.postOrderP [] :=
    List.mem_of_mem_filter (List.mem_of_mem_filter (List.mem_of_mem_filter hmem))
  obtain ⟨r, hpath, hget⟩ := NNModule.postOrderP_getAt m [] pm h1
  rw [List.nil_append] at hpath
  rw [hpath]
  exact hget

/-! ## The copy loop as a fold, and its invariants -/

theorem foldUpdates_nil (d : NNModule) : foldUpdates d [] = d := rfl

theorem foldUpdates_cons (d : NNModule) (pr : List Nat × NNModule)
    (L : List (List Nat × NNModule)) :
    foldUpdates d (pr :: L)
      = foldUpdates (NNModule.updateAt (fun u => u.loadFrom pr.2) d pr.1) L := rfl

theorem foldUpdates_skel : ∀ (L : List (List Nat × NNModule)) (d : NNModule),
    (foldUpdates d L).skel = d.skel
  | [], _ => rfl
  | pr :: L, d => by
    rw [foldUpdates_cons, foldUpdates_skel L,
      NNModule.updateAt_skel _ (fun u => NNModule.loadFrom_skel u pr.2) pr.1 d]

theorem getAt_map_skel_of_skel (X Y : NNModule) (h : X.skel = Y.skel) (q : List Nat) :
    (X.getAt q).map NNModule.skel = (Y.getAt q).map NNModule.skel := by
  rw [← NNModule.getAt_skel, ← NNModule.getAt_skel, h]

theorem sdCompatible_of_skel (X Y s : NNModule) (h : X.skel = Y.skel) :
    X.sdCompatible s = Y.sdCompatible s := by
  rw [← NNModule.sdCompatible_skel X s, ← NNModule.sdCompatible_skel Y s, h]

theorem pairsCompatible_of_skel (X Y : NNModule) (L : List (List Nat × NNModule))
    (h : X.skel = Y.skel) : pairsCompatible X L = pairsCompatible Y L := by
  simp only [pairsCompatible]
  apply congrArg
  funext pr
  have hg := getAt_map_skel_of_skel X Y h pr.1
  cases hX : X.getAt pr.1 with
  | none =>
    cases hY : Y.getAt pr.1 with
    | none => rfl
    | some dmY => rw [hX, hY] at hg; simp at hg
  | some dmX =>
    cases hY : Y.getAt pr.1 with
    | none => rw [hX, hY] at hg; simp at hg
    | some dmY =>
      rw [hX, hY] at hg
      simp at hg
      exact sdCompatible_of_skel dmX dmY pr.2 hg

theorem loadLoop_eq_foldUpdates : ∀ (L : List (List Nat × NNModule)) (d : NNModule),
    pairsCompatible d L = true → loadLoop d L = (none, foldUpdates d L)
  | [], d => fun _ => rfl
  | (pd, sm) :: L, d => by
    intro hc
    simp only [pairsCompatible, List.all_cons, Bool.and_eq_true] at hc
    obtain ⟨h1, h2⟩ := hc
    cases hg : d.getAt pd with
    | none => rw [hg] at h1; simp at h1
    | some dm =>
      rw [hg] at h1
      simp only at h1
      rw [loadLoop, hg]
      simp only [h1, if_true]
      rw [foldUpdates_cons]
      apply loadLoop_eq_foldUpdates L
      have hsk : (NNModule.updateAt (fun u => u.loadFrom sm) d pd).skel = d.skel :=
        NNModule.updateAt_skel _ (fun u => NNModule.loadFrom_skel u sm) pd d
      rw [pairsCompatible_of_skel _ d L hsk]
      exact h2

theorem loadLoop_none_imp_compat : ∀ (L : List (List Nat × NNModule)) (d : NNModule),
    (∀ pr ∈ L, (d.getAt pr.1).isSome) → (loadLoop d L).1 = none →
    pairsCompatible d L = true
  | [], _ => fun _ _ => rfl
  | (pd, sm) :: L, d => by
    intro hv hn
    have hps : (d.getAt pd).isSome := hv (pd, sm) (List.mem_cons_self _ _)
    cases hg : d.getAt pd with
    | none => rw [hg] at hps; simp at hps
    | some dm =>
      rw [loadLoop, hg] at hn
      by_cases hcm : dm.sdCompatible sm = true
      · simp only [hcm, if_true] at hn
        have hsk : (NNModule.updateAt (fun u => u.loadFrom sm) d pd).skel = d.skel :=
          NNModule.updateAt_skel _ (fun u => NNModule.loadFrom_skel u sm) pd d
        have hv2 : ∀ pr ∈ L,
            ((NNModule.updateAt (fun u => u.loadFrom sm) d pd).getAt pr.1).isSome := by
          intro pr hpr
          have hmap := getAt_map_skel_of_skel _ d hsk pr.1
          have := hv pr (List.mem_cons_of_mem _ hpr)
          cases hX : (NNModule.updateAt (fun u => u.loadFrom sm) d pd).getAt pr.1 with
          | none =>
            cases hY : d.getAt pr.1 with
            | none => rw [hY] at this; simp at this
            | some dm2 => rw [hX, hY] at hmap; simp at hmap
          | some _ => simp
        have hrec := loadLoop_none_imp_compat L _ hv2 hn
        rw [pairsCompatible_of_skel _ d L hsk] at hrec
        simp only [pairsCompatible, List.all_cons, Bool.and_eq_true, hg]
        exact ⟨hcm, hrec⟩
      · simp only [Bool.not_eq_true] at hcm
        simp only [hcm, Bool.false_eq_true, if_false] at hn
        simp at hn

theorem foldUpdates_getAt_preserved : ∀ (L : List (List Nat × NNModule)) (d : NNModule)
    (p : List Nat),
    (∀ q ∈ L.map (·.1), isPreB q p = false ∧ isPreB p q = false) →
    (foldUpdates d L).getAt p = d.getAt p
  | [], _, _ => fun _ => rfl
  | (pd, sm) :: L, d, p => by
    intro hdiv
    have hd := hdiv pd (by simp)
    rw [foldUpdates_cons, foldUpdates_getAt_preserved L _ p
      (fun q hq => hdiv q (by simp at hq ⊢; exact Or.inr hq))]
    exact NNModule.getAt_updateAt_divergent _ pd p d hd.1 hd.2

theorem foldUpdates_getAt_noNest : ∀ (L : List (List Nat × NNModule)) (d : NNModule)
    (pr : List Nat × NNModule) (dm : NNModule),
    noNestB (L.map (·.1)) = true → pr ∈ L → d.getAt pr.1 = some dm →
    (foldUpdates d L).getAt pr.1 = some (dm.loadFrom pr.2)
  | [], _, _, _ => by intro _ h _; simp at h
  | (pd, sm) :: L, d, pr, dm => by
    intro hnn hmem hget
    simp only [List.map_cons, noNestB, Bool.and_eq_true, List.all_eq_true] at hnn
    obtain ⟨hall, hnn2⟩ := hnn
    rw [foldUpdates_cons]
    rcases List.mem_cons.mp hmem with heq | hmem2
    · obtain rfl := heq
      have hupd : (NNModule.updateAt (fun u => u.loadFrom sm) d pd).getAt pd
          = some (dm.loadFrom sm) := NNModule.getAt_updateAt_self _ pd d dm hget
      rw [foldUpdates_getAt_preserved L _ pd ?hdiv]
      · exact hupd
      case hdiv =>
        intro q hq
        have := hall q hq
        simp only [Bool.and_eq_true, Bool.not_eq_true'] at this
        exact ⟨this.2, this.1⟩
    · have hd := hall pr.1 (List.mem_map_of_mem _ hmem2)
      simp only [Bool.and_eq_true, Bool.not_eq_true'] at hd
      have hget2 : (NNModule.updateAt (fun u => u.loadFrom sm) d pd).getAt pr.1
          = some dm := by
        rw [NNModule.getAt_updateAt_divergent _ pd pr.1 d hd.1 hd.2]
        exact hget
      exact foldUpdates_getAt_noNest L _ pr dm hnn2 hmem2 hget2

theorem foldUpdates_nodeLocal_outside : ∀ (L : List (List Nat × NNModule)) (d : NNModule)
    (q : List Nat), ¬ coveredBy (L.map (·.1)) q →
    ((foldUpdates d L).getAt q).map nodeLocal = (d.getAt q).map nodeLocal
  | [], _, _ => fun _ => rfl
  | (pd, sm) :: L, d, q => by
    intro hnc
    have h1 : isPreB pd q = false := by
      by_contra h
      simp only [Bool.not_eq_false] at h
      exact hnc ⟨pd, by simp, h⟩
    have hnc2 : ¬ coveredBy (L.map (·.1)) q := by
      intro ⟨p, hp, hpre⟩
      exact hnc ⟨p, by simp at hp ⊢; exact Or.inr hp, hpre⟩
    rw [foldUpdates_cons, foldUpdates_nodeLocal_outside L _ q hnc2]
    exact NNModule.getAt_updateAt_nodeLocal _ pd q d h1

theorem foldUpdates_congr : ∀ (L : List (List Nat × NNModule)) (X Y : NNModule),
    X.skel = Y.skel → pairsCompatible Y L = true →
    (∀ q, ¬ coveredBy (L.map (·.1)) q →
      (X.getAt q).map nodeLocal = (Y.getAt q).map nodeLocal) →
    foldUpdates X L = foldUpdates Y L
  | [], X, Y => by
    intro hsk _ hag
    exact NNModule.ext_nodeLocal X Y (fun q => hag q (by simp [coveredBy]))
  | (pd, sm) :: L, X, Y => by
    intro hsk hc hag
    simp only [pairsCompatible, List.all_cons, Bool.and_eq_true] at hc
    obtain ⟨h1, h2⟩ := hc
    cases hgY : Y.getAt pd with
    | none => rw [hgY] at h1; simp at h1
    | some dmY =>
      rw [hgY] at h1
      have hgmap := getAt_map_skel_of_skel X Y hsk pd
      cases hgX : X.getAt pd with
      | none => rw [hgX, hgY] at hgmap; simp at hgmap
      | some dmX =>
        rw [hgX, hgY] at hgmap
        simp at hgmap
        have hcX : dmX.sdCompatible sm = true := by
          rw [sdCompatible_of_skel dmX dmY sm hgmap]
          exact h1
        have hload : dmX.loadFrom sm = dmY.loadFrom sm :=
          NNModule.loadFrom_congr dmX dmY sm hgmap hcX
        rw [foldUpdates_cons, foldUpdates_cons]
        have hskX : (NNModule.updateAt (fun u => u.loadFrom sm) X pd).skel = X.skel :=
          NNModule.updateAt_skel _ (fun u => NNModule.loadFrom_skel u sm) pd X
        have hskY : (NNModule.updateAt (fun u => u.loadFrom sm) Y pd).skel = Y.skel :=
          NNModule.updateAt_skel _ (fun u => NNModule.loadFrom_skel u sm) pd Y
        apply foldUpdates_congr L
        · rw [hskX, hskY, hsk]
        · rw [pairsCompatible_of_skel _ Y L hskY]
          exact h2
        · intro q hq
          by_cases hpq : isPreB pd q = true
          · obtain ⟨r, rfl⟩ := (isPreB_iff pd q).mp hpq
            rw [NNModule.getAt_updateAt_append _ pd r X dmX hgX,
              NNModule.getAt_updateAt_append _ pd r Y dmY hgY, hload]
          · simp only [Bool.not_eq_true] at hpq
            rw [NNModule.getAt_updateAt_nodeLocal _ pd q X hpq,
              NNModule.getAt_updateAt_nodeLocal _ pd q Y hpq]
            apply hag q
            intro ⟨p, hp, hpre⟩
            simp only [List.map_cons, List.mem_cons] at hp
            rcases hp with rfl | hp
            · rw [hpre] at hpq; exact absurd hpq (by simp)
            · exact hq ⟨p, hp, hpre⟩

theorem foldUpdates_foldUpdates (L : List (List Nat × NNModule)) (d : NNModule)
    (hc : pairsCompatible d L = true) :
    foldUpdates (foldUpdates d L) L = foldUpdates d L := by
  apply foldUpdates_congr L (foldUpdates d L) d (foldUpdates_skel L d) hc
  intro q hq
  exact foldUpdates_nodeLocal_outside L d q hq

/-! ## A compatible strict load copies the complete state -/

mutual
theorem NNModule.loadFrom_sdAgree : ∀ d s : NNModule,
    d.sdCompatible s = true → (d.loadFrom s).sdAgree s = true
  | .mk kX pX bX csX, .mk kS pS bS csS => by
    intro hc
    simp only [NNModule.sdCompatible, Bool.and_eq_true] at hc
    obtain ⟨hce, hcl⟩ := hc
    simp only [entriesCompatible, Bool.and_eq_true] at hce
    obtain ⟨hcov, -⟩ := hce
    simp only [List.all_append, Bool.and_eq_true] at hcov
    simp only [NNModule.loadFrom, NNModule.sdAgree, Bool.and_eq_true, List.all_append]
    exact ⟨⟨copyEntries_agree pX _ hcov.1, copyEntries_agree bX _ hcov.2⟩,
      NNModules.loadFromList_sdAgreeList csX csS hcl⟩

theorem NNModules.loadFromList_sdAgreeList : ∀ cs ds : NNModules,
    NNModules.sdCompatibleList cs ds = true →
    NNModules.sdAgreeList (NNModules.loadFromList cs ds) ds = true
  | .nil, .nil => fun _ => rfl
  | .nil, .cons _ _ => by intro h; simp [NNModules.sdCompatibleList] at h
  | .cons _ _, .nil => by intro h; simp [NNModules.sdCompatibleList] at h
  | .cons c rest, .cons d ds => by
    intro h
    simp only [NNModules.sdCompatibleList, Bool.and_eq_true] at h
    simp only [NNModules.loadFromList, NNModules.sdAgreeList, Bool.and_eq_true]
    exact ⟨NNModule.loadFrom_sdAgree c d h.1,
      NNModules.loadFromList_sdAgreeList rest ds h.2⟩
end

/-! ## C3: positional transfer -/

theorem transferPlan_getAt (mt : ModuleTransfer) (pr : List Nat × NNModule)
    (hmem : pr ∈ mt.transferPlan) : (mt.dest.getAt pr.1).isSome := by
  obtain ⟨p, s⟩ := pr
  have h := List.of_mem_zip hmem
  obtain ⟨pm, hpm, hfst⟩ := List.mem_map.mp h.1
  have := filteredPairs_getAt mt.dest mt.dest_skip pm hpm
  show (mt.dest.getAt p).isSome = true
  rw [← hfst, this]
  rfl

theorem loadLoop_fst_cases : ∀ (L : List (List Nat × NNModule)) (d : NNModule),
    (loadLoop d L).1 = none ∨ (loadLoop d L).1 = some TransferError.shapeMismatch
  | [], _ => Or.inl rfl
  | (pd, sm) :: L, d => by
    cases hg : d.getAt pd with
    | none => rw [loadLoop, hg]; exact Or.inl rfl
    | some dm =>
      rw [loadLoop, hg]
      by_cases hc : dm.sdCompatible sm = true
      · simp only [hc, if_true]
        exact loadLoop_fst_cases L _
      · simp only [Bool.not_eq_true] at hc
        simp [hc]

/-- C3: when the filtered source and destination sequences have equal length, the
transfer succeeds if and only if the strict load is shape-compatible at every position
(same key sets, same shapes — parameters and buffers alike), and it fails with the
parameter-shape-mismatch error exactly when some position is incompatible.  When all
positions are compatible (and the traced destination leaves are pairwise non-nested, as
in every realistic model), the final destination holds, at each planned path, the old
leaf with the complete state of the paired source leaf — parameters together with
buffered running statistics — copied into it. -/
theorem C3_positional_copy (mt : ModuleTransfer) (x : Tensor)
    (hlen : (filteredPairs mt.dest mt.dest_skip).length
      = (filteredPairs mt.src mt.src_skip).length) :
    ((mt.call x).1 = none ↔ pairsCompatible mt.dest mt.transferPlan = true) ∧
    ((mt.call x).1 = some TransferError.shapeMismatch ↔
      pairsCompatible mt.dest mt.transferPlan = false) ∧
    (pairsCompatible mt.dest mt.transferPlan = true →
      noNestB (mt.transferPlan.map (·.1)) = true →
      ∀ pr ∈ mt.transferPlan, ∃ dm, mt.dest.getAt pr.1 = some dm ∧
        (mt.call x).2.getAt pr.1 = some (dm.loadFrom pr.2) ∧
        (dm.loadFrom pr.2).sdAgree pr.2 = true) := by
  have hcall : mt.call x = loadLoop mt.dest mt.transferPlan := by
    rw [ModuleTransfer.call]
    simp [hlen]
  have hv : ∀ pr ∈ mt.transferPlan, (mt.dest.getAt pr.1).isSome :=
    fun pr hpr => transferPlan_getAt mt pr hpr
  have hiff : (mt.call x).1 = none ↔ pairsCompatible mt.dest mt.transferPlan = true := by
    constructor
    · intro hn
      rw [hcall] at hn
      exact loadLoop_none_imp_compat mt.transferPlan mt.dest hv hn
    · intro hcom
      rw [hcall, loadLoop_eq_foldUpdates mt.transferPlan mt.dest hcom]
  refine ⟨hiff, ?_, ?_⟩
  · constructor
    · intro hshape
      cases hcom : pairsCompatible mt.dest mt.transferPlan with
      | false => rfl
      | true =>
        rw [hiff.mpr hcom] at hshape
        exact absurd hshape (by simp)
    · intro hcom
      rcases loadLoop_fst_cases mt.transferPlan mt.dest with h | h
      · rw [← hcall] at h
        rw [hiff.mp h] at hcom
        exact absurd hcom (by simp)
      · rw [← hcall] at h
        exact h
  · intro hcom hnn pr hpr
    cases hg : mt.dest.getAt pr.1 with
    | none =>
      have := hv pr hpr
      rw [hg] at this
      simp at this
    | some dm =>
      refine ⟨dm, rfl, ?_, ?_⟩
      · have hres : (mt.call x).2 = foldUpdates mt.dest mt.transferPlan := by
          rw [hcall, loadLoop_eq_foldUpdates mt.transferPlan mt.dest hcom]
        rw [hres]
        exact foldUpdates_getAt_noNest mt.transferPlan mt.dest pr dm hnn hpr hg
      · apply NNModule.loadFrom_sdAgree
        have := List.all_eq_true.mp hcom pr hpr
        rw [hg] at this
        exact this

/-- Witness evaluating C3 at explicit inputs: transferring the matching source fixture
into the destination fixture succeeds, and both planned positions (the conv leaf and the
batch-norm leaf, running statistics included) end up holding the source leaf's state. -/
theorem C3_positional_copy_witness :
    (mtOkW.call xW).1 = none ∧
    ∀ pr ∈ mtOkW.transferPlan, ∃ dm, mtOkW.dest.getAt pr.1 = some dm ∧
      (mtOkW.call xW).2.getAt pr.1 = some (dm.loadFrom pr.2) ∧
      (dm.loadFrom pr.2).sdAgree pr.2 = true := by
  have h := C3_positional_copy mtOkW xW (by decide)
  exact ⟨h.1.mpr (by decide), h.2.2 (by decide) (by decide)⟩

/-! ## C8: idempotence of the transfer -/

/-- C8: when a transfer succeeds, running it again with the same inputs (the already
written destination, the same source and sample input) succeeds too and leaves every
destination parameter exactly as after the first run: the second call returns no error
and the unchanged destination tree.  The trace of the written destination follows the
same paths (the copy only rewrites tensor contents, never the structure, names or
shapes), every position is still shape-compatible, and re-copying the same source values
is the identity. -/
theorem C8_transfer_idempotent (mt : ModuleTransfer) (x : Tensor)
    (hsucc : (mt.call x).1 = none) :
    ModuleTransfer.call { mt with dest := (mt.call x).2 } x = (none, (mt.call x).2) := by
  by_cases hlen : (filteredPairs mt.dest mt.dest_skip).length
      = (filteredPairs mt.src mt.src_skip).length
  case neg =>
    exfalso
    rw [ModuleTransfer.call] at hsucc
    simp [hlen] at hsucc
  case pos =>
    have hcall : mt.call x = loadLoop mt.dest mt.transferPlan := by
      rw [ModuleTransfer.call]
      simp [hlen]
    have hv : ∀ pr ∈ mt.transferPlan, (mt.dest.getAt pr.1).isSome :=
      fun pr hpr => transferPlan_getAt mt pr hpr
    have hcom : pairsCompatible mt.dest mt.transferPlan = true := by
      apply loadLoop_none_imp_compat _ _ hv
      rw [← hcall]
      exact hsucc
    have hres : (mt.call x).2 = foldUpdates mt.dest mt.transferPlan := by
      rw [hcall, loadLoop_eq_foldUpdates _ _ hcom]
    have hskel : ((mt.call x).2).skel = mt.dest.skel := by
      rw [hres]
      exact foldUpdates_skel _ _
    have hfp : (filteredPairs (mt.call x).2 mt.dest_skip).map (·.1)
        = (filteredPairs mt.dest mt.dest_skip).map (·.1) :=
      filteredPairs_fst_of_skel _ _ _ hskel
    have hlen2 : (filteredPairs (mt.call x).2 mt.dest_skip).length
        = (filteredPairs mt.src mt.src_skip).length := by
      rw [filteredPairs_length_of_skel _ mt.dest _ hskel]
      exact hlen
    have hplan2 : ModuleTransfer.transferPlan { mt with dest := (mt.call x).2 }
        = mt.transferPlan := by
      rw [ModuleTransfer.transferPlan, ModuleTransfer.transferPlan]
      exact congrArg₂ List.zip hfp rfl
    have hcom2 : pairsCompatible (mt.call x).2 mt.transferPlan = true := by
      rw [pairsCompatible_of_skel _ mt.dest _ hskel]
      exact hcom
    rw [ModuleTransfer.call]
    simp only [ne_eq, hlen2, not_true_eq_false, if_false, ite_false, hplan2]
    rw [loadLoop_eq_foldUpdates _ _ hcom2, hres, foldUpdates_foldUpdates _ _ hcom]

/-- Witness evaluating C8 at explicit inputs: the fixture transfer succeeds once, and the
second run returns no error and the identical destination tree. -/
theorem C8_transfer_idempotent_witness :
    ModuleTransfer.call { mtOkW with dest := (mtOkW.call xW).2 } xW
      = (none, (mtOkW.call xW).2) :=
  C8_transfer_idempotent mtOkW xW (by decide)

end ResNetConvert
